import Mathlib

/-!
Verification of the data-processing and geometry core of `rocket-sight`
(`src/components/RocketVisualization.tsx`): the tabular parser `parseCSV`,
the viewport fitter `zoomToFit`, the grid synthesizer `buildGridPaths`,
the selection manager, and the selection export `handleSelectionExport`.

JavaScript numbers are modelled by `JsNum`: either NaN, a signed infinity,
or an exact rational. This idealizes IEEE-754 precision and overflow (and
ignores the sign of zero), but keeps the NaN/Infinity propagation rules
that the source relies on for its degenerate-input behavior.
-/

/-- A JavaScript number: NaN, ±Infinity, or a finite value (idealized as an
exact rational). `inf true` is `+Infinity`, `inf false` is `-Infinity`. -/
inductive JsNum where
  | nan : JsNum
  | inf : Bool → JsNum
  | fin : ℚ → JsNum
deriving DecidableEq, Repr

/-- JS unary minus. -/
def jsNeg : JsNum → JsNum
  | .nan => .nan
  | .inf s => .inf (!s)
  | .fin q => .fin (-q)

/-- JS addition. -/
def jsAdd : JsNum → JsNum → JsNum
  | .nan, _ => .nan
  | _, .nan => .nan
  | .inf s, .inf t => if s = t then .inf s else .nan
  | .inf s, .fin _ => .inf s
  | .fin _, .inf t => .inf t
  | .fin a, .fin b => .fin (a + b)

/-- JS subtraction, `a - b = a + (-b)`. -/
def jsSub (a b : JsNum) : JsNum := jsAdd a (jsNeg b)

/-- JS multiplication. -/
def jsMul : JsNum → JsNum → JsNum
  | .nan, _ => .nan
  | _, .nan => .nan
  | .inf s, .inf t => .inf (s = t)
  | .inf s, .fin q => if q = 0 then .nan else .inf (s = decide (0 < q))
  | .fin q, .inf s => if q = 0 then .nan else .inf (s = decide (0 < q))
  | .fin a, .fin b => .fin (a * b)

/-- JS division (the sign of zero is ignored: a finite numerator divided by
zero gets the numerator's sign). -/
def jsDiv : JsNum → JsNum → JsNum
  | .nan, _ => .nan
  | _, .nan => .nan
  | .inf _, .inf _ => .nan
  | .inf s, .fin q => if q = 0 then .inf s else .inf (s = decide (0 ≤ q))
  | .fin _, .inf _ => .fin 0
  | .fin a, .fin b => if b = 0 then (if a = 0 then .nan else .inf (decide (0 < a))) else .fin (a / b)

/-- JS `Math.floor`. -/
def jsFloor : JsNum → JsNum
  | .nan => .nan
  | .inf s => .inf s
  | .fin q => .fin (⌊q⌋ : ℤ)

/-- JS `Math.ceil`. -/
def jsCeil : JsNum → JsNum
  | .nan => .nan
  | .inf s => .inf s
  | .fin q => .fin (⌈q⌉ : ℤ)

/-- JS `Math.abs`. -/
def jsAbs : JsNum → JsNum
  | .nan => .nan
  | .inf _ => .inf true
  | .fin q => .fin |q|

/-- JS `<=` comparison; false whenever an operand is NaN. -/
def jsLeB : JsNum → JsNum → Bool
  | .nan, _ => false
  | _, .nan => false
  | .inf false, _ => true
  | .inf true, .inf true => true
  | .inf true, _ => false
  | .fin _, .inf t => t
  | .fin a, .fin b => decide (a ≤ b)

/-- JS `<` comparison; false whenever an operand is NaN. -/
def jsLtB : JsNum → JsNum → Bool
  | .nan, _ => false
  | _, .nan => false
  | .inf false, .inf false => false
  | .inf false, _ => true
  | .inf true, _ => false
  | .fin _, .inf t => t
  | .fin a, .fin b => decide (a < b)

/-- JS `Math.max` (NaN-propagating, as `Math.max` is). -/
def jsMax (a b : JsNum) : JsNum :=
  if a = .nan ∨ b = .nan then .nan else if jsLtB a b then b else a

/-- JS `Math.min` (NaN-propagating). -/
def jsMin (a b : JsNum) : JsNum :=
  if a = .nan ∨ b = .nan then .nan else if jsLtB b a then b else a

/-- Truncation of a rational toward zero, as JS `%` uses. -/
def truncQ (q : ℚ) : ℤ := if 0 ≤ q then ⌊q⌋ else ⌈q⌉

/-- JS remainder `%`: NaN for NaN operands, infinite dividend or zero divisor;
the dividend itself for an infinite divisor; otherwise the truncated remainder
(sign follows the dividend). -/
def jsMod : JsNum → JsNum → JsNum
  | .nan, _ => .nan
  | _, .nan => .nan
  | .inf _, _ => .nan
  | .fin a, .inf _ => .fin a
  | .fin a, .fin b => if b = 0 then .nan else .fin (a - b * (truncQ (a / b) : ℚ))

/-- JS truthiness of a number: NaN and 0 are falsy, everything else truthy. -/
def jsTruthy : JsNum → Bool
  | .nan => false
  | .inf _ => true
  | .fin q => decide (q ≠ 0)

/-- JS `a || b` on an optional number `a` (`undefined || b = b`). -/
def jsOrDefault (a : Option JsNum) (b : JsNum) : JsNum :=
  match a with
  | none => b
  | some v => if jsTruthy v then v else b

/-- The epsilon `1e-9` used by the grid loops. -/
def eps9 : ℚ := 1 / 1000000000

/-- The viewport bounds quadruple `[minX, minY, maxX, maxY]`. -/
structure Bounds where
  minX : JsNum
  minY : JsNum
  maxX : JsNum
  maxY : JsNum
deriving DecidableEq, Repr

/-- A grid line: a two-point path in world space and a major flag. -/
structure GridLine where
  path : List (JsNum × JsNum)
  major : Bool
deriving DecidableEq, Repr

/-- One grid line as pushed by `buildGridPaths`: vertical lines run
`[[x, startY], [x, endY]]`, horizontal ones `[[startX, y], [endX, y]]`;
the major flag is `Math.abs((x / safeStep) % 5) < 1e-9`. -/
def gridLine (vert : Bool) (x lo hi step : JsNum) : GridLine :=
  { path := if vert then [(x, lo), (x, hi)] else [(lo, x), (hi, x)],
    major := jsLtB (jsAbs (jsMod (jsDiv x step) (.fin 5))) (.fin eps9) }

/-- The body of one generation loop of `buildGridPaths`
(`for (let x = startX; x <= end + 1e-9; x += safeStep) { push; if (++count > cap) break; }`),
with an explicit fuel argument for structural recursion. The fuel is
chosen by `gridAxisLoop` so that it never runs out: the counter increases
by one at every iteration and the loop breaks as soon as it passes `cap`.
Returns the pushed lines together with the final counter value. -/
def gridGo (vert : Bool) (stopv step lo hi : JsNum) : JsNum → ℕ → ℕ → ℕ → List GridLine × ℕ
  | _, count, _, 0 => ([], count)
  | x, count, cap, fuel + 1 =>
    if jsLeB x (jsAdd stopv (.fin eps9)) then
      let line := gridLine vert x lo hi step
      if count + 1 > cap then ([line], count + 1)
      else
        let r := gridGo vert stopv step lo hi (jsAdd x step) (count + 1) cap fuel
        (line :: r.1, r.2)
    else ([], count)

/-- One generation loop of `buildGridPaths`, run with exactly enough fuel. -/
def gridAxisLoop (vert : Bool) (x stopv step lo hi : JsNum) (count cap : ℕ) : List GridLine × ℕ :=
  gridGo vert stopv step lo hi x count cap (cap + 1 - count)

/-- The line cap `MAX = 400` of `buildGridPaths`. -/
def MAXLINES : ℕ := 400

/-- The effective grid step: `const safeStep = step || Math.max(dx, dy) / 10`.
JS `||` falls through to the default exactly when `step` is absent, `0` or
NaN; any other value (negative and infinite ones included) is truthy and
is used as supplied. -/
def effectiveStep (b : Bounds) (stepOpt : Option JsNum) : JsNum :=
  jsOrDefault stepOpt (jsDiv (jsMax (jsSub b.maxX b.minX) (jsSub b.maxY b.minY)) (.fin 10))

/-- `buildGridPaths(bounds, step?)`: snap the loop ranges to multiples of the
effective step, then run the vertical loop (cap 400) and the horizontal loop
(cumulative cap `MAX * 2 = 800`, the counter carrying over), and concatenate. -/
def buildGridPaths (b : Bounds) (stepOpt : Option JsNum) : List GridLine :=
  let safeStep := effectiveStep b stepOpt
  let startX := jsMul (jsFloor (jsDiv b.minX safeStep)) safeStep
  let endX := jsMul (jsCeil (jsDiv b.maxX safeStep)) safeStep
  let startY := jsMul (jsFloor (jsDiv b.minY safeStep)) safeStep
  let endY := jsMul (jsCeil (jsDiv b.maxY safeStep)) safeStep
  let v := gridAxisLoop true startX endX safeStep startY endY 0 MAXLINES
  let h := gridAxisLoop false startY endY safeStep startX endX v.2 (MAXLINES * 2)
  v.1 ++ h.1

/-- The loop body of `buildGridPaths` again, but returning `none` when the
supplied iteration budget `fuel` runs out instead of silently stopping.
`gridGoFuel ... fuel = some r` certifies that the source loop exits (by its
numeric condition or by the line cap) within `fuel` iterations. -/
def gridGoFuel (vert : Bool) (stopv step lo hi : JsNum) : JsNum → ℕ → ℕ → ℕ → Option (List GridLine × ℕ)
  | _, _, _, 0 => none
  | x, count, cap, fuel + 1 =>
    if jsLeB x (jsAdd stopv (.fin eps9)) then
      let line := gridLine vert x lo hi step
      if count + 1 > cap then some ([line], count + 1)
      else
        match gridGoFuel vert stopv step lo hi (jsAdd x step) (count + 1) cap fuel with
        | none => none
        | some r => some (line :: r.1, r.2)
    else some ([], count)

/-- `buildGridPaths` with an explicit iteration budget for each of the two
generation loops; `some` exactly when both loops finish within the budget. -/
def buildGridPathsFuel (b : Bounds) (stepOpt : Option JsNum) (fuel : ℕ) : Option (List GridLine) :=
  let safeStep := effectiveStep b stepOpt
  let startX := jsMul (jsFloor (jsDiv b.minX safeStep)) safeStep
  let endX := jsMul (jsCeil (jsDiv b.maxX safeStep)) safeStep
  let startY := jsMul (jsFloor (jsDiv b.minY safeStep)) safeStep
  let endY := jsMul (jsCeil (jsDiv b.maxY safeStep)) safeStep
  match gridGoFuel true endX safeStep startY endY startX 0 MAXLINES fuel with
  | none => none
  | some v =>
    match gridGoFuel false endY safeStep startX endX startY v.2 (MAXLINES * 2) fuel with
    | none => none
    | some h => some (v.1 ++ h.1)

/-- Split a character list at every occurrence of `c` (JS `split(c)`):
always returns at least one (possibly empty) piece. -/
def splitOnChar (c : Char) : List Char → List (List Char)
  | [] => [[]]
  | a :: rest =>
    match splitOnChar c rest with
    | [] => if a = c then [[], []] else [[a]]
    | h :: t => if a = c then [] :: h :: t else (a :: h) :: t

/-- Drop one trailing carriage return, if present. -/
def stripTrailCR (l : List Char) : List Char :=
  if l.getLast? = some '\r' then l.dropLast else l

/-- Strip one trailing `\r` from every piece except the last: splitting on
the regex `\r?\n` is splitting on `\n` where each separator may consume one
preceding `\r`; a final piece keeps its `\r` since no `\n` follows it. -/
def stripSepCR : List (List Char) → List (List Char)
  | [] => []
  | [p] => [p]
  | p :: rest => stripTrailCR p :: stripSepCR rest

/-- `text.split(/\r?\n/).filter(Boolean)`: split into lines and drop the
empty ones (empty strings are falsy). -/
def jsSplitLines (text : String) : List String :=
  ((stripSepCR (splitOnChar '\n' text.data)).map (fun l => (⟨l⟩ : String))).filter (· ≠ "")

/-- JS `String.prototype.trim` (idealized to ASCII whitespace). -/
def trimChars (l : List Char) : List Char :=
  ((l.dropWhile Char.isWhitespace).reverse.dropWhile Char.isWhitespace).reverse

/-- JS `trim` on strings. -/
def jsTrim (s : String) : String := ⟨trimChars s.data⟩

/-- JS `toLowerCase` (idealized to ASCII). -/
def jsToLower (s : String) : String := ⟨s.data.map Char.toLower⟩

/-- `line.split(delim).map(s => s.trim())`. -/
def splitCells (delim : Char) (line : String) : List String :=
  (splitOnChar delim line.data).map (fun l => jsTrim ⟨l⟩)

/-- Delimiter detection: tab if present anywhere in the text, else semicolon
if present, else comma. -/
def jsDetectDelim (text : String) : Char :=
  if text.data.contains '\t' then '\t' else if text.data.contains ';' then ';' else ','

/-- JS `Array.prototype.indexOf`, as an optional index. -/
def idxOf (l : List String) (s : String) : Option ℕ :=
  match l with
  | [] => none
  | a :: rest => if a = s then some 0 else (idxOf rest s).map (· + 1)

/-- Decimal value of a digit-character list (most significant first). -/
def digitsVal (cs : List Char) : ℕ := cs.foldl (fun a c => 10 * a + (c.toNat - 48)) 0

/-- The exponent part of a JS float literal, after the `e`/`E`: an optional
sign and then the longest digit run (an empty run contributes exponent 0,
matching `parseFloat`'s longest-valid-prefix rule). -/
def expOf : List Char → ℤ
  | [] => 0
  | c :: t =>
    if c = '+' then (digitsVal (t.takeWhile Char.isDigit) : ℤ)
    else if c = '-' then -(digitsVal (t.takeWhile Char.isDigit) : ℤ)
    else (digitsVal ((c :: t).takeWhile Char.isDigit) : ℤ)

/-- The unsigned body of JS `parseFloat` after sign handling: `Infinity`
(not finite, hence `none` here), or integer digits, an optional fraction,
and an optional exponent; `none` when no digits are found (NaN). Longest
valid prefix, trailing garbage ignored. Idealizes IEEE rounding/overflow:
the decimal value is taken exactly. -/
def parseUnsigned (cs : List Char) (neg : Bool) : Option ℚ :=
  if cs.take 8 = "Infinity".data then none
  else
    let intDs := cs.takeWhile Char.isDigit
    let rest1 := cs.dropWhile Char.isDigit
    let fracDs := if rest1.head? = some '.' then rest1.tail.takeWhile Char.isDigit else []
    let rest2 := if rest1.head? = some '.' then rest1.tail.dropWhile Char.isDigit else rest1
    if intDs = [] ∧ fracDs = [] then none
    else
      let e : ℤ := match rest2.head? with
        | some c => if c = 'e' ∨ c = 'E' then expOf rest2.tail else 0
        | none => 0
      let v : ℚ := ((digitsVal intDs : ℚ) + (digitsVal fracDs : ℚ) / 10 ^ fracDs.length) * 10 ^ e
      some (if neg then -v else v)

/-- JS `parseFloat` composed with the `Number.isFinite` guard of the parser:
`some q` when `parseFloat` yields the finite value `q`, `none` when it
yields NaN or an infinity. -/
def parseFloatFinite (s : String) : Option ℚ :=
  match s.data.dropWhile Char.isWhitespace with
  | [] => parseUnsigned [] false
  | c :: rest =>
    if c = '+' then parseUnsigned rest false
    else if c = '-' then parseUnsigned rest true
    else parseUnsigned (c :: rest) false

/-- `parseFloat` applied to a possibly-undefined cell: an absent cell is
`undefined`, and `parseFloat(undefined)` is NaN. -/
def parseFloatCell (c : Option String) : Option ℚ := c.bind parseFloatFinite

/-- A regular expression over the fragment needed by the feasible flag:
anchors, literals, sequencing and alternation. -/
inductive Rx where
  | anchorStart : Rx
  | anchorEnd : Rx
  | lit : List Char → Rx
  | seq : Rx → Rx → Rx
  | alt : Rx → Rx → Rx

/-- All ways a pattern can match starting at absolute position `pos` with
remaining input `rest`: each result is the position and remainder after the
match. -/
def rxMat : Rx → ℕ → List Char → List (ℕ × List Char)
  | .anchorStart, pos, rest => if pos = 0 then [(pos, rest)] else []
  | .anchorEnd, pos, rest => if rest = [] then [(pos, rest)] else []
  | .lit w, pos, rest =>
    if rest.take w.length = w then [(pos + w.length, rest.drop w.length)] else []
  | .seq a b, pos, rest => (rxMat a pos rest).flatMap (fun p => rxMat b p.1 p.2)
  | .alt a b, pos, rest => rxMat a pos rest ++ rxMat b pos rest

/-- `RegExp.prototype.test`: search for a match at every start position. -/
def rxTest (r : Rx) (s : List Char) : Bool :=
  (List.range (s.length + 1)).any (fun i => !(rxMat r i (s.drop i)).isEmpty)

/-- The pattern `^true|1$`: alternation of `^true` and `1$`. -/
def feasPattern : Rx :=
  .alt (.seq .anchorStart (.lit ['t', 'r', 'u', 'e'])) (.seq (.lit ['1']) .anchorEnd)

/-- `/^true|1$/i.test(s)`: the case-insensitive flag is modelled by
lower-casing the input (the pattern is already lower case). -/
def feasTest (s : String) : Bool := rxTest feasPattern (s.data.map Char.toLower)

/-- One parsed record (`RocketData` in the source). `Option String` fields
model JS strings that may be `undefined` when a row is shorter than the
header: `none` is `undefined`. -/
structure RocketData where
  id : Option String
  latentx1 : ℚ
  latentx2 : ℚ
  design_var_1 : Option String
  design_var_2 : Option String
  feasible : Bool
deriving DecidableEq, Repr

/-- Parse one data line (the body of the row loop of `parseCSV`): split and
trim the cells, parse the two coordinates, and skip the row (`none`) unless
both are finite; `i` is the 1-based index of the line in the line list, so
the default id is `String(i - 1)`. -/
def parseRow (delim : Char) (ix iy : ℕ) (iid idv1 idv2 ifeas : Option ℕ)
    (i : ℕ) (line : String) : Option RocketData :=
  let cols := splitCells delim line
  match parseFloatCell cols[ix]?, parseFloatCell cols[iy]? with
  | some x, some y =>
    let rawFeas := match ifeas with
      | some j => (cols[j]?).getD ""
      | none => ""
    some {
      id := match iid with
        | some j => cols[j]?
        | none => some (toString (i - 1)),
      latentx1 := x,
      latentx2 := y,
      design_var_1 := match idv1 with | some j => cols[j]? | none => some "",
      design_var_2 := match idv2 with | some j => cols[j]? | none => some "",
      feasible := feasTest (jsTrim rawFeas) }
  | _, _ => none

/-- The lower-cased, trimmed header cells. -/
def headerLower (delim : Char) (h : String) : List String :=
  (splitCells delim h).map jsToLower

/-- The message of the schema error thrown by `parseCSV`. -/
def schemaErrMsg : String := "CSV must include 'latentx1' and 'latentx2' columns"

/-- `rows.push(...)` guarded on a successful row parse: append the parsed
row to the accumulator, or keep the accumulator unchanged. -/
def pushRow {α β : Type} (f : α → Option β) (acc : List β) (a : α) : List β :=
  match f a with
  | some r => acc ++ [r]
  | none => acc

/-- `parseCSV(text)`: detect the delimiter, split into nonempty lines
(returning the empty dataset when none remain), require the `latentx1` and
`latentx2` header columns (else the schema error), then run the row loop,
pushing each successfully parsed row. -/
def parseCSV (text : String) : Except String (List RocketData) :=
  let delim := jsDetectDelim text
  match jsSplitLines text with
  | [] => .ok []
  | header :: dataLines =>
    let lower := headerLower delim header
    match idxOf lower "latentx1", idxOf lower "latentx2" with
    | some ix, some iy =>
      .ok ((List.enumFrom 1 dataLines).foldl
        (pushRow (fun p => parseRow delim ix iy (idxOf lower "id") (idxOf lower "design_var_1")
          (idxOf lower "design_var_2") (idxOf lower "feasible") p.1 p.2)) [])
    | _, _ => .error schemaErrMsg

/-- JS `Math.min(...xs)`: fold of `Math.min` from `Infinity`. -/
def jsMinList (l : List JsNum) : JsNum := l.foldl jsMin (.inf true)

/-- JS `Math.max(...xs)`: fold of `Math.max` from `-Infinity`. -/
def jsMaxList (l : List JsNum) : JsNum := l.foldl jsMax (.inf false)

/-- The view state computed by `zoomToFit`. `zoomLogArg` is the argument
the source passes to `Math.log2` (`Math.max(scale, 1e-6)`); the logarithm
itself is kept symbolic since the log of a rational is not rational, and
`zoom = log2 zoomLogArg` is a finite number exactly when `zoomLogArg` is
finite and positive (`jsLog2Finite`). -/
structure FitViewState where
  targetX : JsNum
  targetY : JsNum
  zoomLogArg : JsNum
  bounds : Bounds
deriving DecidableEq, Repr

/-- Whether `Math.log2 a` is a finite number: `log2` of NaN or a negative
number is NaN, of `0` is `-Infinity`, of `Infinity` is `Infinity`, and of a
positive finite number is finite. -/
def jsLog2Finite : JsNum → Bool
  | .fin q => decide (0 < q)
  | _ => false

/-- `zoomToFit(data, margin = 0.1)`: bounding box of the points, spans
floored at `1e-9`, window dimensions floored at `1`, scale from the margin
expanded span, and the `log2` clamp at `1e-6`. The window dimensions
(`window.innerWidth/innerHeight`, always finite numbers) are passed as
parameters. -/
def zoomToFit (data : List RocketData) (margin : ℚ) (innerW innerH : ℚ) : FitViewState :=
  let xs := data.map (fun d => JsNum.fin d.latentx1)
  let ys := data.map (fun d => JsNum.fin d.latentx2)
  let minX := jsMinList xs
  let maxX := jsMaxList xs
  let minY := jsMinList ys
  let maxY := jsMaxList ys
  let w := jsMax (.fin (1 / 1000000000)) (jsSub maxX minX)
  let h := jsMax (.fin (1 / 1000000000)) (jsSub maxY minY)
  let cx := jsDiv (jsAdd minX maxX) (.fin 2)
  let cy := jsDiv (jsAdd minY maxY) (.fin 2)
  let vw := jsMax (.fin 1) (.fin innerW)
  let vh := jsMax (.fin 1) (.fin innerH)
  let span := jsMul (jsMax w h) (.fin (1 + margin))
  let screenSpan := jsMin vw vh
  let scale := jsDiv screenSpan span
  { targetX := cx, targetY := cy,
    zoomLogArg := jsMax scale (.fin (1 / 1000000)),
    bounds := ⟨minX, minY, maxX, maxY⟩ }

/-- A finalized selection rectangle in world coordinates (the two drag
corners, in either order). -/
structure WorldRect where
  x1 : ℚ
  y1 : ℚ
  x2 : ℚ
  y2 : ℚ
deriving DecidableEq, Repr

/-- Modelled from the spec: containment of a record's `(x, y)` in the
finalized world-space rectangle (the drag corners may come in either
order, so the sides are normalized with min/max). -/
def inRect (rc : WorldRect) (r : RocketData) : Bool :=
  decide (min rc.x1 rc.x2 ≤ r.latentx1) && decide (r.latentx1 ≤ max rc.x1 rc.x2) &&
    decide (min rc.y1 rc.y2 ≤ r.latentx2) && decide (r.latentx2 ≤ max rc.y1 rc.y2)

/-- The SelectionSet: a JS `Map` from record id to record, modelled as an
insertion-ordered association list with unique keys (`selected` in the
source; the id key may be `undefined` when a record's id cell was). -/
def SelectionSet : Type := List (Option String × RocketData)

/-- JS `Map.prototype.set`: overwrite in place when the key is present,
else append at the end. -/
def upsert (k : Option String) (v : RocketData) :
    List (Option String × RocketData) → List (Option String × RocketData)
  | [] => [(k, v)]
  | (k2, v2) :: rest => if k2 = k then (k, v) :: rest else (k2, v2) :: upsert k v rest

/-- JS `Map.prototype.get` (as an option). -/
def lookupSel : List (Option String × RocketData) → Option String → Option RocketData
  | [], _ => none
  | (k2, v) :: rest, k => if k2 = k then some v else lookupSel rest k

/-- Modelled from the spec: the drag-completion handler — not present in the
excerpted source, which only declares the selection state (`selected`,
`isSelecting`, `selectionBounds`) and `clearSelection` — unions every record
whose `(x, y)` falls within the finalized world-space rectangle into the
SelectionSet, keyed by record id, without removing existing entries. -/
def applySelection (rc : WorldRect) (data : List RocketData)
    (s : List (Option String × RocketData)) : List (Option String × RocketData) :=
  data.foldl (fun m r => if inRect rc r then upsert r.id r m else m) s

/-- JS `Array.prototype.join(sep)` at the character-list level. -/
def joinCL (sep : Char) : List (List Char) → List Char
  | [] => []
  | [p] => p
  | p :: rest => p ++ sep :: joinCL sep rest

/-- Decimal digits of a natural number, most significant first, with an
explicit fuel argument (`natDigits` supplies `n` itself, which is enough
since the value shrinks by a factor of ten per digit). -/
def natDigitsGo : ℕ → ℕ → List ℕ
  | 0, n => [n]
  | fuel + 1, n => if n < 10 then [n] else natDigitsGo fuel (n / 10) ++ [n % 10]

/-- Decimal digits of a natural number, most significant first. -/
def natDigits (n : ℕ) : List ℕ := natDigitsGo n n

/-- The decimal string of `m / 10^k`: the digits of `m` padded to at least
`k + 1` digits, with a decimal point inserted `k` digits from the right
(none when `k = 0`). -/
def decString (m k : ℕ) : String :=
  let ds := natDigits m
  let padded := List.replicate (k + 1 - ds.length) 0 ++ ds
  let ipart := padded.take (padded.length - k)
  let fpart := padded.drop (padded.length - k)
  if k = 0 then ⟨ipart.map Nat.digitChar⟩
  else ⟨ipart.map Nat.digitChar ++ '.' :: fpart.map Nat.digitChar⟩

/-- JS `Number.prototype.toString` on the exact-rational model, for numbers
whose denominator divides a power of ten (every parsed coordinate is such,
since binary floats have finite decimal expansions): the exact plain
decimal expansion, with a leading minus sign for negatives. The fallback
exponent `0` of the bounded search is never used for such numbers. -/
def ratToString (q : ℚ) : String :=
  let d := q.den
  let k := ((List.range (d + 1)).find? (fun j => 10 ^ j % d = 0)).getD 0
  let m := q.num.natAbs * (10 ^ k / d)
  (if q.num < 0 then "-" else "") ++ decString m k

/-- A possibly-undefined string as it appears in `Array.prototype.join`:
`undefined` becomes the empty string. -/
def cellStr (o : Option String) : String := o.getD ""

/-- The cells of one exported row:
`[d.id, d.latentx1.toString(), d.latentx2.toString(), d.design_var_1, d.design_var_2, d.feasible.toString()]`. -/
def rowCells (r : RocketData) : List (List Char) :=
  [(cellStr r.id).data, (ratToString r.latentx1).data, (ratToString r.latentx2).data,
   (cellStr r.design_var_1).data, (cellStr r.design_var_2).data,
   (if r.feasible then "true" else "false").data]

/-- One exported row: the cells joined with commas. -/
def rowString (r : RocketData) : String := ⟨joinCL ',' (rowCells r)⟩

/-- The exported header row. -/
def exportHeader : String := "id,latentx1,latentx2,design_var_1,design_var_2,feasible"

/-- The full exported text: header and rows joined with newlines. -/
def exportText (rows : List RocketData) : String :=
  ⟨joinCL '\n' (exportHeader.data :: rows.map (fun r => (rowString r).data))⟩

/-- `handleSelectionExport`: no output for an empty selection (the function
returns before building the text); otherwise the delimited text built from
the selection's values in iteration (insertion) order. -/
def handleSelectionExport (sel : List (Option String × RocketData)) : Option String :=
  if sel.length = 0 then none
  else some (exportText (sel.map (fun p => p.2)))

/-- A field value that round-trips through the exported text: a defined
string, invariant under trimming, containing no delimiter or line
separator characters. -/
def cleanStr (s : String) : Prop :=
  (∀ c ∈ s.data, c ≠ '\t' ∧ c ≠ ';' ∧ c ≠ ',' ∧ c ≠ '\n') ∧ trimChars s.data = s.data

/-- A defined, clean cell. -/
def CleanCell (o : Option String) : Prop :=
  match o with
  | none => False
  | some s => cleanStr s

/-- A rational with finite decimal expansion: its denominator divides a
power of ten (`10 ^ den` suffices whenever any power works). -/
def DecimalRat (q : ℚ) : Prop := (q.den : ℕ) ∣ 10 ^ q.den

/-- A record whose export round-trips: defined clean id and design-variable
cells, and coordinates with finite decimal expansions. -/
def CleanRecord (r : RocketData) : Prop :=
  CleanCell r.id ∧ CleanCell r.design_var_1 ∧ CleanCell r.design_var_2 ∧
    DecimalRat r.latentx1 ∧ DecimalRat r.latentx2

/- ### Theorems -/

theorem jsLeB_nan_left (y : JsNum) : jsLeB .nan y = false := by
  cases y <;> rfl

theorem jsAdd_nan_right (a : JsNum) : jsAdd a .nan = .nan := by
  cases a <;> rfl

theorem jsDiv_nan_right (a : JsNum) : jsDiv a .nan = .nan := by
  cases a <;> rfl

theorem jsMul_nan_right (a : JsNum) : jsMul a .nan = .nan := by
  cases a <;> rfl

theorem jsSub_nan_right (a : JsNum) : jsSub a .nan = .nan := by
  cases a <;> rfl

theorem jsSub_fin_self (x : ℚ) : jsSub (.fin x) (.fin x) = .fin 0 := by
  simp [jsSub, jsNeg, jsAdd]

/-- If the loop condition fails at entry, the loop body produces nothing,
whatever the fuel. -/
theorem gridGo_stop (vert : Bool) (stopv step lo hi x : JsNum) (count cap fuel : ℕ)
    (h : jsLeB x (jsAdd stopv (.fin eps9)) = false) :
    gridGo vert stopv step lo hi x count cap fuel = ([], count) := by
  cases fuel with
  | zero => rfl
  | succ f => simp [gridGo, h]

/-- Each iteration of the loop body consumes one unit of fuel, so the
number of generated lines is bounded by the fuel. -/
theorem gridGo_length_le (vert : Bool) (stopv step lo hi : JsNum) :
    ∀ (fuel : ℕ) (x : JsNum) (count cap : ℕ),
      ((gridGo vert stopv step lo hi x count cap fuel).1).length ≤ fuel := by
  intro fuel
  induction fuel with
  | zero => intro x count cap; simp [gridGo]
  | succ f ih =>
    intro x count cap
    simp only [gridGo]
    by_cases h : jsLeB x (jsAdd stopv (.fin eps9)) = true
    · simp only [h, if_true]
      by_cases h2 : count + 1 > cap
      · simp [h2]
      · simp only [h2, if_false]
        have := ih (jsAdd x step) (count + 1) cap
        simpa using Nat.succ_le_succ this
    · simp [h]

/-- The final counter equals the initial counter plus the number of lines
pushed: the loop increments the counter exactly once per pushed line. -/
theorem gridGo_snd (vert : Bool) (stopv step lo hi : JsNum) :
    ∀ (fuel : ℕ) (x : JsNum) (count cap : ℕ),
      (gridGo vert stopv step lo hi x count cap fuel).2 =
        count + ((gridGo vert stopv step lo hi x count cap fuel).1).length := by
  intro fuel
  induction fuel with
  | zero => intro x count cap; simp [gridGo]
  | succ f ih =>
    intro x count cap
    simp only [gridGo]
    by_cases h : jsLeB x (jsAdd stopv (.fin eps9)) = true
    · simp only [h, if_true]
      by_cases h2 : count + 1 > cap
      · simp [h2]
      · simp only [h2, if_false]
        have := ih (jsAdd x step) (count + 1) cap
        simp [this]
        omega
    · simp [h]

/-- The two chained loops of `buildGridPaths` produce at most `801` lines:
the vertical loop breaks after at most `401` pushes (its cap check runs
after the push), and the horizontal loop breaks once the carried counter
passes `800`, which caps the total at `801`. -/
theorem grid_loops_length_le (vA vB : Bool) (s1 st l1 h1 x1 s2 l2 h2 x2 : JsNum) :
    ((gridAxisLoop vA x1 s1 st l1 h1 0 MAXLINES).1 ++
      (gridAxisLoop vB x2 s2 st l2 h2 (gridAxisLoop vA x1 s1 st l1 h1 0 MAXLINES).2
        (MAXLINES * 2)).1).length ≤ 801 := by
  rw [List.length_append]
  have hv := gridGo_length_le vA s1 st l1 h1 (MAXLINES + 1 - 0) x1 0 MAXLINES
  have hv2 := gridGo_snd vA s1 st l1 h1 (MAXLINES + 1 - 0) x1 0 MAXLINES
  have hh := gridGo_length_le vB s2 st l2 h2
    (MAXLINES * 2 + 1 - (gridAxisLoop vA x1 s1 st l1 h1 0 MAXLINES).2)
    x2 (gridAxisLoop vA x1 s1 st l1 h1 0 MAXLINES).2 (MAXLINES * 2)
  simp only [gridAxisLoop] at *
  simp only [MAXLINES] at *
  omega

/-- C1: corrected. The grid builder's caps are one line looser than the spec
states: the cap check `++count > MAX` runs after each push, so the vertical
loop can produce up to `401` lines, and the horizontal loop is bounded by the
cumulative counter cap `800` (not by an additional `400`), so the returned
list can have up to `801` lines — but never more. Hitting a cap is early
stopping, not an error: the function still returns normally. -/
theorem buildGridPaths_length_le_801 (b : Bounds) (stepOpt : Option JsNum) :
    (buildGridPaths b stepOpt).length ≤ 801 :=
  grid_loops_length_le _ _ _ _ _ _ _ _ _ _ _

set_option maxRecDepth 40000 in
/-- C1: counterexample to the claimed caps. For bounds `(0, 0, 0, 1000)` and
step `1` the vertical loop exits after one line, and the horizontal loop then
pushes `800` lines (more than the claimed `400`) before its cap check passes
`800`, for a total of `801` lines (more than the claimed `800`). -/
theorem buildGridPaths_cap_overrun :
    (buildGridPaths ⟨.fin 0, .fin 0, .fin 0, .fin 1000⟩ (some (.fin 1))).length = 801 := by
  with_unfolding_all decide

/-- C9: confirmed. For bounds `(0, 0, 10, 10)` and explicit step `5` the grid
builder produces exactly 3 vertical lines and then 3 horizontal lines, at
coordinates 0, 5 and 10, and only the two lines at coordinate 0 are major:
`0 / 5 = 0` is a multiple of 5 within epsilon, while `5 / 5 = 1` and
`10 / 5 = 2` are not. -/
theorem buildGridPaths_bounds_0_0_10_10_step_5 :
    buildGridPaths ⟨.fin 0, .fin 0, .fin 10, .fin 10⟩ (some (.fin 5)) =
      [⟨[(.fin 0, .fin 0), (.fin 0, .fin 10)], true⟩,
       ⟨[(.fin 5, .fin 0), (.fin 5, .fin 10)], false⟩,
       ⟨[(.fin 10, .fin 0), (.fin 10, .fin 10)], false⟩,
       ⟨[(.fin 0, .fin 0), (.fin 10, .fin 0)], true⟩,
       ⟨[(.fin 0, .fin 5), (.fin 10, .fin 5)], false⟩,
       ⟨[(.fin 0, .fin 10), (.fin 10, .fin 10)], false⟩] := by
  with_unfolding_all decide

/-- C4: counterexample. For bounds `(0, 0, 10, 10)` the auto step is
`max(10, 10) / 10 = 1`, but an explicit negative step `-5` is truthy in JS,
so `step || fallback` keeps it: the effective step is `-5`, not the fallback
`1` the claim requires for a non-positive explicit step. -/
theorem effectiveStep_keeps_negative_step :
    effectiveStep ⟨.fin 0, .fin 0, .fin 10, .fin 10⟩ (some (.fin (-5))) = .fin (-5) ∧
    effectiveStep ⟨.fin 0, .fin 0, .fin 10, .fin 10⟩ none = .fin 1 ∧
    (JsNum.fin (-5) : JsNum) ≠ .fin 1 := by
  refine ⟨by with_unfolding_all decide, by with_unfolding_all decide, by with_unfolding_all decide⟩

/-- C4: amended. The effective step equals the explicit step exactly when one
is provided and it is truthy — nonzero and not NaN (negative and infinite
values included) — and otherwise (absent, zero, or NaN) it is
`max(width, height) / 10` of the bounds. -/
theorem effectiveStep_spec (b : Bounds) :
    (effectiveStep b none =
      jsDiv (jsMax (jsSub b.maxX b.minX) (jsSub b.maxY b.minY)) (.fin 10)) ∧
    (∀ v : JsNum, jsTruthy v = true → effectiveStep b (some v) = v) ∧
    (∀ v : JsNum, jsTruthy v = false →
      effectiveStep b (some v) =
        jsDiv (jsMax (jsSub b.maxX b.minX) (jsSub b.maxY b.minY)) (.fin 10)) ∧
    (∀ v : JsNum, jsTruthy v = false ↔ (v = .nan ∨ v = .fin 0)) := by
  refine ⟨rfl, ?_, ?_, ?_⟩
  · intro v hv; simp [effectiveStep, jsOrDefault, hv]
  · intro v hv; simp [effectiveStep, jsOrDefault, hv]
  · intro v
    cases v with
    | nan => simp [jsTruthy]
    | inf s => simp [jsTruthy]
    | fin q => simp [jsTruthy]

/-- C4: witness for the amended claim at a concrete input: an explicit
positive step `7` is truthy and is used as supplied. -/
theorem effectiveStep_spec_witness :
    effectiveStep ⟨.fin 0, .fin 0, .fin 2, .fin 2⟩ (some (.fin 7)) = .fin 7 :=
  (effectiveStep_spec ⟨.fin 0, .fin 0, .fin 2, .fin 2⟩).2.1 (.fin 7) (by with_unfolding_all decide)

/-- With enough fuel, the fuelled loop body succeeds and agrees with the
capped loop body: the counter rises by one per iteration and the loop breaks
past `cap`, so `cap + 1 - count` iterations always suffice. -/
theorem gridGoFuel_eq_some (vert : Bool) (stopv step lo hi : JsNum) :
    ∀ (f : ℕ) (x : JsNum) (count cap : ℕ), count ≤ cap → cap + 1 ≤ f + count →
      gridGoFuel vert stopv step lo hi x count cap f =
        some (gridGo vert stopv step lo hi x count cap (cap + 1 - count)) := by
  intro f
  induction f with
  | zero => intro x count cap h1 h2; omega
  | succ f ih =>
    intro x count cap h1 h2
    have hrw : cap + 1 - count = (cap - count) + 1 := by omega
    rw [hrw]
    simp only [gridGoFuel, gridGo]
    by_cases h : jsLeB x (jsAdd stopv (.fin eps9)) = true
    · simp only [h, if_true]
      by_cases hb : count + 1 > cap
      · simp [hb]
      · simp only [hb, if_false]
        have hc1 : count + 1 ≤ cap := by omega
        have hc2 : cap + 1 ≤ f + (count + 1) := by omega
        rw [ih (jsAdd x step) (count + 1) cap hc1 hc2]
        have hrw2 : cap + 1 - (count + 1) = cap - count := by omega
        rw [hrw2]
    · simp [h]

/-- Core of the termination argument, over arbitrary loop endpoints: with
fuel `802` the fuelled run of both loops succeeds and returns exactly the
capped loops' output. -/
theorem grid_fuel_core (st sX eX sY eY : JsNum) :
    (match gridGoFuel true eX st sY eY sX 0 MAXLINES 802 with
     | none => none
     | some v =>
       match gridGoFuel false eY st sX eX sY v.2 (MAXLINES * 2) 802 with
       | none => none
       | some h => some (v.1 ++ h.1)) =
    some ((gridAxisLoop true sX eX st sY eY 0 MAXLINES).1 ++
      (gridAxisLoop false sY eY st sX eX
        (gridAxisLoop true sX eX st sY eY 0 MAXLINES).2 (MAXLINES * 2)).1) := by
  have h1 := gridGoFuel_eq_some true eX st sY eY 802 sX 0 MAXLINES
    (by simp [MAXLINES]) (by simp [MAXLINES])
  rw [h1]
  dsimp only
  have hc := gridGo_snd true eX st sY eY (MAXLINES + 1 - 0) sX 0 MAXLINES
  have hl := gridGo_length_le true eX st sY eY (MAXLINES + 1 - 0) sX 0 MAXLINES
  have h2 := gridGoFuel_eq_some false eY st sX eX 802 sY
    ((gridGo true eX st sY eY sX 0 MAXLINES (MAXLINES + 1 - 0)).2) (MAXLINES * 2)
    (by simp only [MAXLINES] at *; omega) (by simp only [MAXLINES] at *; omega)
  rw [h2]
  dsimp only
  rfl

/-- C10: confirmed. The grid builder terminates for every bounds and every
explicit step (negative steps included, for which the loop variable moves
away from the end bound and only the cap can stop the loop): each loop
finishes within `802` iterations, certified by the fuelled variant returning
`some`. Degenerate inputs generate zero iterations: with no explicit step, a
zero-span bounds gives step `0` and a NaN start (`floor(min/0) * 0`), and a
NaN span propagates NaN into the start, so both loop conditions are false
immediately. -/
theorem buildGridPaths_terminates :
    (∀ (b : Bounds) (stepOpt : Option JsNum),
      buildGridPathsFuel b stepOpt 802 = some (buildGridPaths b stepOpt)) ∧
    (∀ x y : ℚ, buildGridPaths ⟨.fin x, .fin y, .fin x, .fin y⟩ none = []) ∧
    (∀ a b c : JsNum, buildGridPaths ⟨.nan, a, b, c⟩ none = []) := by
  refine ⟨?_, ?_, ?_⟩
  · intro b stepOpt
    exact grid_fuel_core (effectiveStep b stepOpt) _ _ _ _
  · intro x y
    show buildGridPaths _ none = []
    have hstep : effectiveStep ⟨.fin x, .fin y, .fin x, .fin y⟩ none = .fin 0 := by
      show jsDiv (jsMax (jsSub (.fin x) (.fin x)) (jsSub (.fin y) (.fin y))) (.fin 10) = .fin 0
      rw [jsSub_fin_self, jsSub_fin_self]
      simp [jsMax, jsLtB, jsDiv]
    have hnanX : jsMul (jsFloor (jsDiv (.fin x) (.fin 0))) (.fin 0) = .nan := by
      by_cases hx : x = 0
      · simp [jsDiv, hx, jsFloor, jsMul]
      · simp [jsDiv, hx, jsFloor, jsMul]
    have hnanY : jsMul (jsFloor (jsDiv (.fin y) (.fin 0))) (.fin 0) = .nan := by
      by_cases hy : y = 0
      · simp [jsDiv, hy, jsFloor, jsMul]
      · simp [jsDiv, hy, jsFloor, jsMul]
    show ((gridAxisLoop true _ _ _ _ _ 0 MAXLINES).1 ++ (gridAxisLoop false _ _ _ _ _ _ (MAXLINES * 2)).1) = []
    rw [hstep, hnanX, hnanY]
    simp only [gridAxisLoop]
    rw [gridGo_stop _ _ _ _ _ _ _ _ _ (jsLeB_nan_left _), gridGo_stop _ _ _ _ _ _ _ _ _ (jsLeB_nan_left _)]
    rfl
  · intro a b c
    show buildGridPaths _ none = []
    have hstep : effectiveStep ⟨.nan, a, b, c⟩ none = .nan := by
      show jsDiv (jsMax (jsSub b .nan) (jsSub c a)) (.fin 10) = .nan
      rw [jsSub_nan_right]
      simp [jsMax, jsDiv]
    show ((gridAxisLoop true _ _ _ _ _ 0 MAXLINES).1 ++ (gridAxisLoop false _ _ _ _ _ _ (MAXLINES * 2)).1) = []
    rw [hstep]
    rw [show jsDiv JsNum.nan JsNum.nan = .nan from rfl]
    rw [jsDiv_nan_right a]
    show ((gridAxisLoop true _ _ _ (jsMul (jsFloor JsNum.nan) JsNum.nan) _ 0 MAXLINES).1 ++ _) = []
    rw [show jsMul (jsFloor JsNum.nan) JsNum.nan = .nan from rfl]
    simp only [gridAxisLoop]
    rw [gridGo_stop _ _ _ _ _ _ _ _ _ (jsLeB_nan_left _), gridGo_stop _ _ _ _ _ _ _ _ _ (jsLeB_nan_left _)]
    rfl

theorem idxOf_eq_none_iff (s : String) : ∀ l : List String, idxOf l s = none ↔ s ∉ l := by
  intro l
  induction l with
  | nil => simp [idxOf]
  | cons a rest ih =>
    by_cases h : a = s
    · simp [idxOf, h]
    · simp [idxOf, h, Option.map_eq_none', ih, Ne.symm h]

/-- C3: counterexample. Empty input has no nonempty lines, so `parseCSV`
returns the empty dataset instead of failing with the schema error the
claim requires for inputs lacking the header columns. -/
theorem parseCSV_empty_input_ok :
    parseCSV "" = Except.ok ([] : List RocketData) := by
  with_unfolding_all rfl

/-- C3: amended. For every input with at least one nonempty line whose
header row lacks the case-insensitive column `latentx1` or `latentx2`,
`parseCSV` fails with the schema error; empty or blank input instead
returns the empty dataset (see the counterexample). -/
theorem parseCSV_missing_columns_error (text h : String) (rest : List String)
    (hsplit : jsSplitLines text = h :: rest)
    (hlack : "latentx1" ∉ headerLower (jsDetectDelim text) h ∨
             "latentx2" ∉ headerLower (jsDetectDelim text) h) :
    parseCSV text = .error schemaErrMsg := by
  simp only [parseCSV, hsplit]
  rcases hlack with h1 | h1
  · rw [(idxOf_eq_none_iff _ _).mpr h1]
  · rw [(idxOf_eq_none_iff _ _).mpr h1]
    cases idxOf (headerLower (jsDetectDelim text) h) "latentx1" <;> rfl

/-- C3: witness. The header `a,b` lacks both columns, and the input has a
nonempty line, so parsing fails with the schema error. -/
theorem parseCSV_missing_columns_error_witness :
    parseCSV "a,b\n1,2" = .error schemaErrMsg :=
  parseCSV_missing_columns_error "a,b\n1,2" "a,b" ["1,2"]
    (by with_unfolding_all rfl)
    (Or.inl (by with_unfolding_all decide))

theorem foldl_push_filterMap {α β : Type} (f : α → Option β) :
    ∀ (l : List α) (acc : List β),
      l.foldl (pushRow f) acc = acc ++ l.filterMap f := by
  intro l
  induction l with
  | nil => intro acc; simp
  | cons a rest ih =>
    intro acc
    cases hfa : f a <;> simp [pushRow, hfa, ih, List.filterMap_cons]

/-- C7: confirmed. For every input whose header has the required columns,
the parsed dataset is exactly the per-line partial parse of the data lines:
each line whose `x` or `y` cell is non-numeric or non-finite maps to `none`
and is dropped, every other line maps to its record, no error is raised,
and lines before and after a dropped one are unaffected (`filterMap`). In
particular the spec's four-line example yields exactly the two records with
ids `1` and `3`, both feasible, with row `2` dropped. -/
theorem parseCSV_row_filter :
    (∀ (text h : String) (rest : List String) (ix iy : ℕ),
      jsSplitLines text = h :: rest →
      idxOf (headerLower (jsDetectDelim text) h) "latentx1" = some ix →
      idxOf (headerLower (jsDetectDelim text) h) "latentx2" = some iy →
      parseCSV text = .ok ((List.enumFrom 1 rest).filterMap
        (fun p => parseRow (jsDetectDelim text) ix iy
          (idxOf (headerLower (jsDetectDelim text) h) "id")
          (idxOf (headerLower (jsDetectDelim text) h) "design_var_1")
          (idxOf (headerLower (jsDetectDelim text) h) "design_var_2")
          (idxOf (headerLower (jsDetectDelim text) h) "feasible") p.1 p.2))) ∧
    parseCSV "id,latentx1,latentx2,feasible\n1,0.5,0.5,true\n2,abc,1.0,false\n3,2.0,2.0,1" =
      .ok [⟨some "1", 1/2, 1/2, some "", some "", true⟩,
           ⟨some "3", 2, 2, some "", some "", true⟩] := by
  constructor
  · intro text h rest ix iy hsplit hix hiy
    simp only [parseCSV, hsplit, hix, hiy]
    have hfold := foldl_push_filterMap (fun p => parseRow (jsDetectDelim text) ix iy
      (idxOf (headerLower (jsDetectDelim text) h) "id")
      (idxOf (headerLower (jsDetectDelim text) h) "design_var_1")
      (idxOf (headerLower (jsDetectDelim text) h) "design_var_2")
      (idxOf (headerLower (jsDetectDelim text) h) "feasible") p.1 p.2)
      (List.enumFrom 1 rest) []
    rw [List.nil_append] at hfold
    exact congrArg Except.ok hfold
  · with_unfolding_all rfl

/-- C7: witness. The general row-filter theorem applied to the spec's
four-line example input. -/
theorem parseCSV_row_filter_witness :
    parseCSV "id,latentx1,latentx2,feasible\n1,0.5,0.5,true\n2,abc,1.0,false\n3,2.0,2.0,1" =
      .ok ((List.enumFrom 1 ["1,0.5,0.5,true", "2,abc,1.0,false", "3,2.0,2.0,1"]).filterMap
        (fun p : ℕ × String => parseRow ',' 1 2 (some 0) none none (some 3) p.1 p.2)) := by
  have hmain := parseCSV_row_filter.1
    "id,latentx1,latentx2,feasible\n1,0.5,0.5,true\n2,abc,1.0,false\n3,2.0,2.0,1"
    "id,latentx1,latentx2,feasible" ["1,0.5,0.5,true", "2,abc,1.0,false", "3,2.0,2.0,1"] 1 2
    (by with_unfolding_all rfl) (by with_unfolding_all rfl) (by with_unfolding_all rfl)
  rw [hmain]
  with_unfolding_all rfl

theorem list_eq_singleton_one_iff (rest : List Char) :
    rest = ['1'] ↔ (rest.take 1 = ['1'] ∧ rest.drop 1 = []) := by
  constructor
  · rintro rfl; exact ⟨rfl, rfl⟩
  · rintro ⟨ht, hd⟩
    conv_lhs => rw [← List.take_append_drop 1 rest]
    rw [ht, hd]
    rfl

theorem drop_pred_eq_singleton (l : List Char) (h : l.getLast? = some '1') :
    l.drop (l.length - 1) = ['1'] := by
  have key : ∀ (m : List Char) (c : Char), (m ++ [c]).drop ((m ++ [c]).length - 1) = [c] := by
    intro m c
    have h1 : (m ++ [c]).length - 1 = m.length := by simp
    rw [h1]
    exact List.drop_left _ _
  have hd := @List.dropLast_append_getLast? _ l '1' (by simp [Option.mem_def, h])
  conv_lhs => rw [← hd]
  exact key _ _

theorem getLast?_of_drop_singleton (l : List Char) (i : ℕ) (h : l.drop i = ['1']) :
    l.getLast? = some '1' := by
  conv_lhs => rw [← List.take_append_drop i l]
  rw [List.getLast?_append_of_ne_nil _ (by rw [h]; simp), h]
  rfl

/-- The feasible pattern matches at a position exactly when the position is
the string start and the remainder begins with `true`, or the remainder is
exactly the single character `1` (so the `1` sits at the end of input). -/
theorem rxMat_feas_ne_nil (i : ℕ) (rest : List Char) :
    rxMat feasPattern i rest ≠ [] ↔
      ((i = 0 ∧ rest.take 4 = ['t', 'r', 'u', 'e']) ∨ rest = ['1']) := by
  simp only [feasPattern, rxMat]
  by_cases hi : i = 0 <;>
    by_cases h4 : rest.take 4 = ['t', 'r', 'u', 'e'] <;>
      by_cases h1 : rest.take 1 = ['1'] <;>
        by_cases hd : rest.drop 1 = [] <;>
          simp [hi, h4, h1, hd, list_eq_singleton_one_iff,
            List.flatMap, List.length_take]

theorem not_isEmpty_iff_ne_nil {α : Type} (l : List α) : (!l.isEmpty) = true ↔ l ≠ [] := by
  cases l <;> simp

/-- C6: amended. The feasible flag of a raw cell is true exactly when the
trimmed, lower-cased cell starts with `true` or ends with the character
`1` — not only when it is exactly the string `1`: the `1$` alternative of
`/^true|1$/` may match at any position, so any trimmed cell whose last
character is `1` (for example `21`) is feasible. -/
theorem feasTest_characterization (raw : String) :
    feasTest (jsTrim raw) =
      (decide (((jsTrim raw).data.map Char.toLower).take 4 = ['t', 'r', 'u', 'e']) ||
       decide (((jsTrim raw).data.map Char.toLower).getLast? = some '1')) := by
  show rxTest feasPattern ((jsTrim raw).data.map Char.toLower) = _
  generalize ((jsTrim raw).data.map Char.toLower) = l
  by_cases h1 : l.take 4 = ['t', 'r', 'u', 'e']
  · have hT : rxTest feasPattern l = true := by
      rw [rxTest, List.any_eq_true]
      refine ⟨0, by simp, (not_isEmpty_iff_ne_nil _).mpr ?_⟩
      exact (rxMat_feas_ne_nil 0 (l.drop 0)).mpr (Or.inl ⟨rfl, by simpa using h1⟩)
    simp [hT, h1]
  · by_cases h2 : l.getLast? = some '1'
    · have hT : rxTest feasPattern l = true := by
        rw [rxTest, List.any_eq_true]
        refine ⟨l.length - 1, by simp only [List.mem_range]; omega, ?_⟩
        refine (not_isEmpty_iff_ne_nil _).mpr ?_
        exact (rxMat_feas_ne_nil _ _).mpr (Or.inr (drop_pred_eq_singleton l h2))
      simp [hT, h2]
    · have hF : rxTest feasPattern l = false := by
        rw [rxTest, List.any_eq_false]
        intro i hi
        have hmat : rxMat feasPattern i (l.drop i) = [] := by
          by_contra hne
          rcases (rxMat_feas_ne_nil i (l.drop i)).mp hne with ⟨hi0, h4⟩ | hsing
          · rw [hi0] at h4; simp only [List.drop_zero] at h4; exact h1 h4
          · exact h2 (getLast?_of_drop_singleton l i hsing)
        simp [hmat]
      simp [hF, h1, h2]

/-- C6: counterexample. The trimmed cell `21` is not the exact string `1`
and does not begin with `true`, yet the code's regex test flags it feasible
because `1$` matches its final character. -/
theorem feasTest_21_counterexample :
    feasTest (jsTrim "21") = true ∧ jsTrim "21" ≠ "1" ∧
      ((jsTrim "21").data.map Char.toLower).take 4 ≠ ['t', 'r', 'u', 'e'] := by
  refine ⟨by with_unfolding_all decide, by with_unfolding_all decide,
    by with_unfolding_all decide⟩

theorem jsMax_fin_fin (a b : ℚ) : jsMax (.fin a) (.fin b) = .fin (max a b) := by
  by_cases h : a < b
  · simp [jsMax, jsLtB, h, max_eq_right h.le]
  · simp [jsMax, jsLtB, h, max_eq_left (le_of_not_lt h)]

theorem jsMin_fin_fin (a b : ℚ) : jsMin (.fin a) (.fin b) = .fin (min a b) := by
  by_cases h : b < a
  · simp [jsMin, jsLtB, h, min_eq_right h.le]
  · simp [jsMin, jsLtB, h, min_eq_left (le_of_not_lt h)]

theorem jsDiv_fin_fin (a b : ℚ) (hb : b ≠ 0) : jsDiv (.fin a) (.fin b) = .fin (a / b) := by
  simp [jsDiv, hb]

/-- C8: confirmed. For a dataset of exactly one record the fit returns (it is
a total function of the data: no exception), its bounds is the zero-area box
at the record's point, and `Math.log2`'s argument is a positive finite number
— the span is floored at `1e-9` and the scale clamped below by `1e-6` — so
the resulting zoom is finite, never NaN or an infinity. -/
theorem zoomToFit_single_point (r : RocketData) (innerW innerH : ℚ) :
    (zoomToFit [r] (1 / 10) innerW innerH).bounds =
      ⟨.fin r.latentx1, .fin r.latentx2, .fin r.latentx1, .fin r.latentx2⟩ ∧
    jsLog2Finite (zoomToFit [r] (1 / 10) innerW innerH).zoomLogArg = true := by
  have hmin1 : ∀ q : ℚ, jsMinList [.fin q] = .fin q := by
    intro q; simp [jsMinList, jsMin, jsLtB]
  have hmax1 : ∀ q : ℚ, jsMaxList [.fin q] = .fin q := by
    intro q; simp [jsMaxList, jsMax, jsLtB]
  constructor
  · simp [zoomToFit, hmin1, hmax1]
  · have hcl : ∀ (a b c : ℚ), b ≠ 0 → 0 < c →
        jsLog2Finite (jsMax (jsDiv (.fin a) (.fin b)) (.fin c)) = true := by
      intro a b c hb hc
      rw [jsDiv_fin_fin a b hb, jsMax_fin_fin]
      simp only [jsLog2Finite, decide_eq_true_eq]
      exact lt_max_iff.mpr (Or.inr hc)
    simp only [zoomToFit, List.map_cons, List.map_nil, hmin1, hmax1, jsSub_fin_self,
      jsMax_fin_fin, jsMin_fin_fin, jsMul]
    exact hcl _ _ _ (by positivity) (by norm_num)

theorem lookupSel_upsert_self (k : Option String) (v : RocketData) :
    ∀ m, lookupSel (upsert k v m) k = some v := by
  intro m
  induction m with
  | nil => simp [upsert, lookupSel]
  | cons p rest ih =>
    by_cases h : p.1 = k
    · simp [upsert, lookupSel, h]
    · simp [upsert, lookupSel, h, ih]

theorem lookupSel_upsert_other (k k2 : Option String) (v : RocketData) (hne : k2 ≠ k) :
    ∀ m, lookupSel (upsert k2 v m) k = lookupSel m k := by
  intro m
  induction m with
  | nil => simp [upsert, lookupSel, hne]
  | cons p rest ih =>
    by_cases h : p.1 = k2
    · simp [upsert, lookupSel, h, hne]
    · simp only [upsert, h]
      by_cases h2 : p.1 = k <;> simp [lookupSel, h2, ih]

theorem upsert_of_lookup_eq (k : Option String) (v : RocketData) :
    ∀ m, lookupSel m k = some v → upsert k v m = m := by
  intro m
  induction m with
  | nil => intro h; simp [lookupSel] at h
  | cons p rest ih =>
    rcases p with ⟨k3, v3⟩
    intro h
    by_cases h2 : k3 = k
    · subst h2
      rw [lookupSel, if_pos rfl, Option.some.injEq] at h
      subst h
      rw [upsert, if_pos rfl]
    · rw [lookupSel, if_neg h2] at h
      rw [upsert, if_neg h2, ih h]

theorem lookupSel_applySelection_of_not_mem (rc : WorldRect) (k : Option String) :
    ∀ (data : List RocketData) (s : List (Option String × RocketData)),
      k ∉ (data.filter (fun r => inRect rc r)).map (fun r => r.id) →
      lookupSel (applySelection rc data s) k = lookupSel s k := by
  intro data
  induction data with
  | nil => intro s _; rfl
  | cons d rest ih =>
    intro s hk
    by_cases hd : inRect rc d
    · rw [List.filter_cons_of_pos hd] at hk
      simp only [List.map_cons, List.mem_cons, not_or] at hk
      show lookupSel (applySelection rc rest (if inRect rc d then upsert d.id d s else s)) k = _
      rw [if_pos hd, ih _ hk.2, lookupSel_upsert_other k d.id d (Ne.symm hk.1)]
    · rw [List.filter_cons_of_neg hd] at hk
      show lookupSel (applySelection rc rest (if inRect rc d then upsert d.id d s else s)) k = _
      rw [if_neg hd, ih _ hk]

theorem lookupSel_applySelection_of_mem (rc : WorldRect) :
    ∀ (data : List RocketData) (s : List (Option String × RocketData)),
      (data.map (fun r => r.id)).Nodup →
      ∀ r ∈ data, inRect rc r = true →
        lookupSel (applySelection rc data s) r.id = some r := by
  intro data
  induction data with
  | nil => intro s _ r hr; simp at hr
  | cons d rest ih =>
    intro s hnodup r hr hrect
    rw [List.map_cons, List.nodup_cons] at hnodup
    rcases List.mem_cons.mp hr with rfl | hr2
    · show lookupSel (applySelection rc rest (if inRect rc r then upsert r.id r s else s)) r.id = _
      rw [if_pos hrect]
      have hnot : r.id ∉ (rest.filter (fun r2 => inRect rc r2)).map (fun r2 => r2.id) := by
        intro hmem
        exact hnodup.1 (List.map_subset _ (List.filter_subset' _) hmem)
      rw [lookupSel_applySelection_of_not_mem rc r.id rest _ hnot]
      exact lookupSel_upsert_self _ _ _
    · show lookupSel (applySelection rc rest (if inRect rc d then upsert d.id d s else s)) r.id = _
      by_cases hd : inRect rc d = true
      · rw [if_pos hd]; exact ih _ hnodup.2 r hr2 hrect
      · rw [if_neg hd]; exact ih _ hnodup.2 r hr2 hrect

theorem lookupSel_upsert_ne_none (k k2 : Option String) (v : RocketData)
    (m : List (Option String × RocketData)) (h : lookupSel m k ≠ none) :
    lookupSel (upsert k2 v m) k ≠ none := by
  by_cases he : k2 = k
  · subst he; rw [lookupSel_upsert_self]; simp
  · rw [lookupSel_upsert_other _ _ _ he]; exact h

theorem lookupSel_applySelection_ne_none (rc : WorldRect) :
    ∀ (data : List RocketData) (s : List (Option String × RocketData)) (k : Option String),
      lookupSel s k ≠ none → lookupSel (applySelection rc data s) k ≠ none := by
  intro data
  induction data with
  | nil => intro s k h; exact h
  | cons d rest ih =>
    intro s k h
    show lookupSel (applySelection rc rest (if inRect rc d then upsert d.id d s else s)) k ≠ none
    by_cases hd : inRect rc d = true
    · rw [if_pos hd]; exact ih _ _ (lookupSel_upsert_ne_none _ _ _ _ h)
    · rw [if_neg hd]; exact ih _ _ h

theorem applySelection_no_op (rc : WorldRect) :
    ∀ (data : List RocketData) (m : List (Option String × RocketData)),
      (∀ r ∈ data, inRect rc r = true → lookupSel m r.id = some r) →
      applySelection rc data m = m := by
  intro data
  induction data with
  | nil => intro m _; rfl
  | cons d rest ih =>
    intro m hm
    show applySelection rc rest (if inRect rc d then upsert d.id d m else m) = m
    by_cases hd : inRect rc d = true
    · rw [if_pos hd]
      rw [upsert_of_lookup_eq _ _ _ (hm d (List.mem_cons_self d rest) hd)]
      exact ih m (fun r hr hrect => hm r (List.mem_cons_of_mem d hr) hrect)
    · rw [if_neg hd]
      exact ih m (fun r hr hrect => hm r (List.mem_cons_of_mem d hr) hrect)

/-- C2: confirmed (against the spec-modelled drag-completion handler). For a
dataset with unique record ids, a completed drag unions every record inside
the finalized world rectangle into the SelectionSet without removing any
existing entry; applying the same rectangle twice leaves the SelectionSet
unchanged (idempotent union); and applying two rectangles that are disjoint
on the dataset accumulates the records contained in either. -/
theorem applySelection_spec (data : List RocketData) (rc rc2 : WorldRect)
    (s : List (Option String × RocketData))
    (hnodup : (data.map (fun r => r.id)).Nodup) :
    (∀ k, lookupSel s k ≠ none → lookupSel (applySelection rc data s) k ≠ none) ∧
    (∀ r ∈ data, inRect rc r = true →
      lookupSel (applySelection rc data s) r.id = some r) ∧
    applySelection rc data (applySelection rc data s) = applySelection rc data s ∧
    ((∀ r ∈ data, ¬(inRect rc r = true ∧ inRect rc2 r = true)) →
      ∀ r ∈ data, inRect rc r = true ∨ inRect rc2 r = true →
        lookupSel (applySelection rc2 data (applySelection rc data s)) r.id = some r) := by
  refine ⟨fun k => lookupSel_applySelection_ne_none rc data s k,
    fun r hr hrect => lookupSel_applySelection_of_mem rc data s hnodup r hr hrect,
    applySelection_no_op rc data _
      (fun r hr hrect => lookupSel_applySelection_of_mem rc data s hnodup r hr hrect),
    ?_⟩
  intro hdisj r hr hor
  rcases hor with hin | hin
  · have hnot2 : r.id ∉ (data.filter (fun r2 => inRect rc2 r2)).map (fun r2 => r2.id) := by
      intro hmem
      rcases List.mem_map.mp hmem with ⟨r2, hr2f, hid⟩
      have hr2 := List.filter_subset' _ hr2f
      have hrect2 : inRect rc2 r2 = true := by
        simpa using List.of_mem_filter hr2f
      have heq : r2 = r := List.inj_on_of_nodup_map hnodup hr2 hr hid
      subst heq
      exact hdisj r2 hr2 ⟨hin, hrect2⟩
    rw [lookupSel_applySelection_of_not_mem rc2 r.id data _ hnot2]
    exact lookupSel_applySelection_of_mem rc data s hnodup r hr hin
  · exact lookupSel_applySelection_of_mem rc2 data _ hnodup r hr hin

/-- C2: witness. Two records with distinct ids and two rectangles each
containing exactly one of them: after both drags, the record contained only
in the second rectangle is present in the SelectionSet. -/
theorem applySelection_spec_witness :
    lookupSel
      (applySelection ⟨9, 9, 11, 11⟩
        [⟨some "a", 0, 0, some "", some "", true⟩, ⟨some "b", 10, 10, some "", some "", false⟩]
        (applySelection ⟨-1, -1, 1, 1⟩
          [⟨some "a", 0, 0, some "", some "", true⟩, ⟨some "b", 10, 10, some "", some "", false⟩]
          []))
      (some "b") = some ⟨some "b", 10, 10, some "", some "", false⟩ :=
  (applySelection_spec
      [⟨some "a", 0, 0, some "", some "", true⟩, ⟨some "b", 10, 10, some "", some "", false⟩]
      ⟨-1, -1, 1, 1⟩ ⟨9, 9, 11, 11⟩ [] (by with_unfolding_all decide)).2.2.2
    (by with_unfolding_all decide)
    ⟨some "b", 10, 10, some "", some "", false⟩ (by simp)
    (Or.inr (by with_unfolding_all decide))

/-- C5: counterexample. A record parsed from tab-delimited input may carry a
semicolon inside a design-variable field; export always joins with commas,
so the exported text contains a semicolon and no tab, delimiter detection
picks the semicolon, the header no longer splits into its columns, and
re-parsing fails with the schema error instead of yielding the records. -/
theorem export_roundtrip_counterexample :
    parseCSV "id\tlatentx1\tlatentx2\tdesign_var_1\n7\t1\t2\ta;b" =
      .ok [⟨some "7", 1, 2, some "a;b", some "", false⟩] ∧
    handleSelectionExport [(some "7", ⟨some "7", 1, 2, some "a;b", some "", false⟩)] =
      some "id,latentx1,latentx2,design_var_1,design_var_2,feasible\n7,1,2,a;b,,false" ∧
    parseCSV "id,latentx1,latentx2,design_var_1,design_var_2,feasible\n7,1,2,a;b,,false" =
      .error schemaErrMsg := by
  refine ⟨by with_unfolding_all rfl, by with_unfolding_all rfl, by with_unfolding_all rfl⟩

theorem foldTen_from : ∀ (xs : List ℕ) (a : ℕ),
    xs.foldl (fun a d => 10 * a + d) a =
      a * 10 ^ xs.length + xs.foldl (fun a d => 10 * a + d) 0 := by
  intro xs
  induction xs with
  | nil => intro a; simp
  | cons d xs ih =>
    intro a
    simp only [List.foldl_cons, List.length_cons]
    rw [ih (10 * a + d), ih (10 * 0 + d)]
    ring

theorem natDigitsGo_spec : ∀ (fuel n : ℕ), n ≤ fuel →
    (∀ d ∈ natDigitsGo fuel n, d < 10) ∧
    (natDigitsGo fuel n).foldl (fun a d => 10 * a + d) 0 = n ∧
    natDigitsGo fuel n ≠ [] := by
  intro fuel
  induction fuel with
  | zero =>
    intro n hn
    have hz : n = 0 := by omega
    subst hz
    exact ⟨by simp [natDigitsGo], by simp [natDigitsGo], by simp [natDigitsGo]⟩
  | succ f ih =>
    intro n hn
    by_cases h : n < 10
    · simp only [natDigitsGo, if_pos h]
      exact ⟨by simpa using h, by simp, by simp⟩
    · simp only [natDigitsGo, if_neg h]
      have hdiv : n / 10 < n := Nat.div_lt_self (by omega) (by omega)
      have hrec := ih (n / 10) (by omega)
      refine ⟨?_, ?_, by simp⟩
      · intro d hd
        rcases List.mem_append.mp hd with h1 | h1
        · exact hrec.1 d h1
        · simp only [List.mem_singleton] at h1
          subst h1
          exact Nat.mod_lt _ (by omega)
      · rw [List.foldl_append, hrec.2.1]
        simpa using Nat.div_add_mod n 10

theorem digitChar_facts (d : ℕ) (h : d < 10) :
    (Nat.digitChar d).isDigit = true ∧ (Nat.digitChar d).toNat - 48 = d := by
  interval_cases d <;> exact ⟨by decide, by decide⟩

theorem digitsVal_map_digitChar : ∀ (ds : List ℕ), (∀ d ∈ ds, d < 10) → ∀ a : ℕ,
    (ds.map Nat.digitChar).foldl (fun a c => 10 * a + (c.toNat - 48)) a =
      ds.foldl (fun a d => 10 * a + d) a := by
  intro ds
  induction ds with
  | nil => intro _ a; rfl
  | cons d rest ih =>
    intro h a
    simp only [List.map_cons, List.foldl_cons]
    rw [(digitChar_facts d (h d (List.mem_cons_self d rest))).2]
    exact ih (fun x hx => h x (List.mem_cons_of_mem d hx)) _

theorem takeWhile_all {p : Char → Bool} : ∀ l : List Char, (∀ c ∈ l, p c = true) →
    l.takeWhile p = l ∧ l.dropWhile p = [] := by
  intro l
  induction l with
  | nil => intro _; exact ⟨rfl, rfl⟩
  | cons c rest ih =>
    intro h
    have hc := h c (List.mem_cons_self c rest)
    have hr := ih (fun x hx => h x (List.mem_cons_of_mem c hx))
    rw [List.takeWhile_cons, List.dropWhile_cons, hc]
    simp [hr.1, hr.2]

theorem takeWhile_append_not {p : Char → Bool} (y : Char) (hy : p y = false) :
    ∀ (xs ys : List Char), (∀ c ∈ xs, p c = true) →
      (xs ++ y :: ys).takeWhile p = xs ∧ (xs ++ y :: ys).dropWhile p = y :: ys := by
  intro xs
  induction xs with
  | nil =>
    intro ys _
    simp only [List.nil_append, List.takeWhile_cons, List.dropWhile_cons, hy]
    exact ⟨rfl, rfl⟩
  | cons c rest ih =>
    intro ys h
    have hc := h c (List.mem_cons_self c rest)
    have hr := ih ys (fun x hx => h x (List.mem_cons_of_mem c hx))
    simp only [List.cons_append, List.takeWhile_cons, List.dropWhile_cons, hc]
    simp [hr.1, hr.2]

theorem dropWhile_ws_eq_self (m : List Char) (hm : ∀ c ∈ m, c.isWhitespace = false) :
    m.dropWhile Char.isWhitespace = m := by
  cases m with
  | nil => rfl
  | cons c rest =>
    rw [List.dropWhile_cons, hm c (List.mem_cons_self _ _)]
    simp

theorem trimChars_eq_self (l : List Char) (h : ∀ c ∈ l, c.isWhitespace = false) :
    trimChars l = l := by
  unfold trimChars
  rw [dropWhile_ws_eq_self l h,
    dropWhile_ws_eq_self _ (fun c hc => h c (List.mem_reverse.mp hc)),
    List.reverse_reverse]

theorem num_char_good (c : Char) (h : c.isDigit = true ∨ c = '.' ∨ c = '-') :
    c.isWhitespace = false ∧ c ≠ '\t' ∧ c ≠ ';' ∧ c ≠ ',' ∧ c ≠ '\n' := by
  rcases h with hd | rfl | rfl
  · refine ⟨?_, ?_, ?_, ?_, ?_⟩
    · cases hb : c.isWhitespace
      · rfl
      · exfalso
        have hb2 := hb
        simp only [Char.isWhitespace, Bool.or_eq_true, decide_eq_true_eq] at hb2
        rcases hb2 with ((rfl | rfl) | rfl) | rfl <;> exact absurd hd (by decide)
    · intro he; subst he; exact absurd hd (by decide)
    · intro he; subst he; exact absurd hd (by decide)
    · intro he; subst he; exact absurd hd (by decide)
    · intro he; subst he; exact absurd hd (by decide)
  · decide
  · decide

theorem map_digitChar_all_digit (ds : List ℕ) (h : ∀ d ∈ ds, d < 10) :
    ∀ c ∈ ds.map Nat.digitChar, c.isDigit = true := by
  intro c hc
  rcases List.mem_map.mp hc with ⟨d, hd, rfl⟩
  exact (digitChar_facts d (h d hd)).1

theorem take8_ne_infinity (ip : List ℕ) (hip10 : ∀ d ∈ ip, d < 10) (hipne : ip ≠ [])
    (tail : List Char) :
    ¬(ip.map Nat.digitChar ++ tail).take 8 = "Infinity".data := by
  rcases ip with _ | ⟨d0, ds'⟩
  · exact absurd rfl hipne
  · intro habs
    rw [show "Infinity".data = 'I' :: "nfinity".data from rfl] at habs
    rw [List.map_cons, List.cons_append, List.take_succ_cons] at habs
    have h0 : Nat.digitChar d0 = 'I' := by injection habs
    have hdig := (digitChar_facts d0 (hip10 d0 (List.mem_cons_self _ _))).1
    rw [h0] at hdig
    exact absurd hdig (by decide)

theorem parseUnsigned_eval_int (ip : List ℕ) (hip10 : ∀ d ∈ ip, d < 10) (hipne : ip ≠ [])
    (neg : Bool) :
    parseUnsigned (ip.map Nat.digitChar) neg =
      some (if neg then -((ip.foldl (fun a d => 10 * a + d) 0 : ℕ) : ℚ)
        else ((ip.foldl (fun a d => 10 * a + d) 0 : ℕ) : ℚ)) := by
  have halldig := map_digitChar_all_digit ip hip10
  have htw := takeWhile_all (ip.map Nat.digitChar) halldig
  have hInf := take8_ne_infinity ip hip10 hipne []
  rw [List.append_nil] at hInf
  have hne : ip.map Nat.digitChar ≠ [] := by
    simpa using hipne
  simp only [parseUnsigned, if_neg hInf, htw.1, htw.2, List.head?_nil]
  simp only [if_neg (show ¬((none : Option Char) = some '.') by simp)]
  rw [if_neg (fun hcontra => hne hcontra.1)]
  simp only [List.head?_nil, digitsVal]
  rw [digitsVal_map_digitChar ip hip10 0]
  simp

theorem parseUnsigned_eval_frac (ip fp : List ℕ) (hip10 : ∀ d ∈ ip, d < 10)
    (hfp10 : ∀ d ∈ fp, d < 10) (hipne : ip ≠ []) (neg : Bool) :
    parseUnsigned (ip.map Nat.digitChar ++ '.' :: fp.map Nat.digitChar) neg =
      some (if neg
        then -(((ip.foldl (fun a d => 10 * a + d) 0 : ℕ) : ℚ) +
          ((fp.foldl (fun a d => 10 * a + d) 0 : ℕ) : ℚ) / 10 ^ fp.length)
        else (((ip.foldl (fun a d => 10 * a + d) 0 : ℕ) : ℚ) +
          ((fp.foldl (fun a d => 10 * a + d) 0 : ℕ) : ℚ) / 10 ^ fp.length)) := by
  have halldigI := map_digitChar_all_digit ip hip10
  have halldigF := map_digitChar_all_digit fp hfp10
  have htw := takeWhile_append_not '.' (show Char.isDigit '.' = false by decide)
    (ip.map Nat.digitChar) (fp.map Nat.digitChar) halldigI
  have htwf := takeWhile_all (fp.map Nat.digitChar) halldigF
  have hInf := take8_ne_infinity ip hip10 hipne ('.' :: fp.map Nat.digitChar)
  have hne : ip.map Nat.digitChar ≠ [] := by simpa using hipne
  simp only [parseUnsigned, if_neg hInf, htw.1, htw.2, List.head?_cons]
  simp only [if_pos (show (some '.' : Option Char) = some '.' from rfl), if_true,
    List.tail_cons, htwf.1, htwf.2, List.head?_nil]
  rw [if_neg (fun hcontra => hne hcontra.1)]
  simp only [if_true, List.head?_nil, digitsVal, List.length_map]
  rw [digitsVal_map_digitChar ip hip10 0, digitsVal_map_digitChar fp hfp10 0]
  simp

theorem foldTen_replicate_zero : ∀ j : ℕ,
    (List.replicate j 0).foldl (fun a d => 10 * a + d) 0 = 0 := by
  intro j
  induction j with
  | zero => rfl
  | succ n ih => simpa [List.replicate_succ, List.foldl_cons] using ih

theorem decString_parts (m k : ℕ) :
    ∃ ip fp : List ℕ,
      (∀ d ∈ ip, d < 10) ∧ (∀ d ∈ fp, d < 10) ∧ ip ≠ [] ∧ fp.length = k ∧
      (ip.foldl (fun a d => 10 * a + d) 0) * 10 ^ k + fp.foldl (fun a d => 10 * a + d) 0 = m ∧
      decString m k =
        (if k = 0 then (⟨ip.map Nat.digitChar⟩ : String)
         else ⟨ip.map Nat.digitChar ++ '.' :: fp.map Nat.digitChar⟩) := by
  have hds : (∀ d ∈ natDigits m, d < 10) ∧
      (natDigits m).foldl (fun a d => 10 * a + d) 0 = m ∧ natDigits m ≠ [] :=
    natDigitsGo_spec m m le_rfl
  refine ⟨(List.replicate (k + 1 - (natDigits m).length) 0 ++ natDigits m).take
      ((List.replicate (k + 1 - (natDigits m).length) 0 ++ natDigits m).length - k),
    (List.replicate (k + 1 - (natDigits m).length) 0 ++ natDigits m).drop
      ((List.replicate (k + 1 - (natDigits m).length) 0 ++ natDigits m).length - k),
    ?_, ?_, ?_, ?_, ?_, ?_⟩
  · intro d hd
    rcases List.mem_append.mp (List.take_subset _ _ hd) with h1 | h1
    · rw [List.eq_of_mem_replicate h1]; omega
    · exact hds.1 d h1
  · intro d hd
    rcases List.mem_append.mp (List.drop_subset _ _ hd) with h1 | h1
    · rw [List.eq_of_mem_replicate h1]; omega
    · exact hds.1 d h1
  · have hdslen : 0 < (natDigits m).length := List.length_pos.mpr hds.2.2
    have hplen : k + 1 ≤ (List.replicate (k + 1 - (natDigits m).length) 0 ++ natDigits m).length := by
      rw [List.length_append, List.length_replicate]
      omega
    apply List.ne_nil_of_length_pos
    rw [List.length_take]
    omega
  · rw [List.length_drop]
    have hdslen : 0 < (natDigits m).length := List.length_pos.mpr hds.2.2
    rw [List.length_append, List.length_replicate]
    omega
  · have hfoldp : (List.replicate (k + 1 - (natDigits m).length) 0 ++ natDigits m).foldl
        (fun a d => 10 * a + d) 0 = m := by
      rw [List.foldl_append, foldTen_replicate_zero, hds.2.1]
    have hdslen : 0 < (natDigits m).length := List.length_pos.mpr hds.2.2
    have hplen : k + 1 ≤ (List.replicate (k + 1 - (natDigits m).length) 0 ++ natDigits m).length := by
      rw [List.length_append, List.length_replicate]
      omega
    have hsplit := List.take_append_drop
      ((List.replicate (k + 1 - (natDigits m).length) 0 ++ natDigits m).length - k)
      (List.replicate (k + 1 - (natDigits m).length) 0 ++ natDigits m)
    have h := hfoldp
    conv_lhs at h => rw [← hsplit]
    rw [List.foldl_append, foldTen_from] at h
    have hlendrop : ((List.replicate (k + 1 - (natDigits m).length) 0 ++ natDigits m).drop
        ((List.replicate (k + 1 - (natDigits m).length) 0 ++ natDigits m).length - k)).length = k := by
      rw [List.length_drop]
      omega
    rw [hlendrop] at h
    exact h
  · rfl

theorem parseUnsigned_decData (M k : ℕ) (neg : Bool) :
    parseUnsigned (decString M k).data neg =
      some (if neg then -((M : ℚ) / 10 ^ k) else (M : ℚ) / 10 ^ k) := by
  obtain ⟨ip, fp, hip10, hfp10, hipne, hfplen, hfold, hdec⟩ := decString_parts M k
  by_cases hk : k = 0
  · subst hk
    rw [hdec]
    have hfp : fp = [] := List.length_eq_zero.mp hfplen
    subst hfp
    have hM : ip.foldl (fun a d => 10 * a + d) 0 = M := by simpa using hfold
    show parseUnsigned (ip.map Nat.digitChar) neg = _
    rw [parseUnsigned_eval_int ip hip10 hipne neg, hM]
    simp
  · rw [hdec, if_neg hk]
    show parseUnsigned (ip.map Nat.digitChar ++ '.' :: fp.map Nat.digitChar) neg = _
    rw [parseUnsigned_eval_frac ip fp hip10 hfp10 hipne neg]
    have h10 : ((10 : ℚ)) ^ k ≠ 0 := by positivity
    have harith : ((ip.foldl (fun a d => 10 * a + d) 0 : ℕ) : ℚ) +
        ((fp.foldl (fun a d => 10 * a + d) 0 : ℕ) : ℚ) / 10 ^ fp.length = (M : ℚ) / 10 ^ k := by
      rw [hfplen, eq_div_iff h10, add_mul, div_mul_cancel₀ _ h10]
      exact_mod_cast hfold
    rw [harith]

theorem parseFloatFinite_no_sign (s : String) (c0 : Char) (rest : List Char)
    (hdata : s.data = c0 :: rest)
    (hnws : ∀ c ∈ s.data, c.isWhitespace = false)
    (hplus : c0 ≠ '+') (hminus : c0 ≠ '-') :
    parseFloatFinite s = parseUnsigned s.data false := by
  unfold parseFloatFinite
  rw [dropWhile_ws_eq_self s.data hnws, hdata]
  dsimp only
  rw [if_neg hplus, if_neg hminus]

theorem parseFloatFinite_minus (s : String) :
    parseFloatFinite ("-" ++ s) = parseUnsigned s.data true := by
  unfold parseFloatFinite
  have hdata : ("-" ++ s).data = '-' :: s.data := by
    rw [String.data_append]
    rfl
  rw [hdata, List.dropWhile_cons]
  rw [if_neg (by decide)]
  dsimp only
  rw [if_neg (by decide), if_pos rfl]

theorem decString_data_facts (M k : ℕ) :
    (∀ c ∈ (decString M k).data, c.isDigit = true ∨ c = '.') ∧
    (∃ d0 rest, (decString M k).data = Nat.digitChar d0 :: rest ∧ d0 < 10) := by
  obtain ⟨ip, fp, hip10, hfp10, hipne, hfplen, hfold, hdec⟩ := decString_parts M k
  rcases ip with _ | ⟨d0, ip'⟩
  · exact absurd rfl hipne
  by_cases hk : k = 0
  · subst hk
    rw [hdec]
    constructor
    · intro c hc
      exact Or.inl (map_digitChar_all_digit _ hip10 c hc)
    · exact ⟨d0, ip'.map Nat.digitChar, rfl, hip10 d0 (List.mem_cons_self _ _)⟩
  · rw [hdec, if_neg hk]
    constructor
    · intro c hc
      rcases List.mem_append.mp hc with h1 | h1
      · exact Or.inl (map_digitChar_all_digit _ hip10 c h1)
      · rcases List.mem_cons.mp h1 with rfl | h2
        · exact Or.inr rfl
        · exact Or.inl (map_digitChar_all_digit _ hfp10 c h2)
    · exact ⟨d0, ip'.map Nat.digitChar ++ '.' :: fp.map Nat.digitChar, rfl,
        hip10 d0 (List.mem_cons_self _ _)⟩

theorem parseFloatFinite_ratToString (q : ℚ) (hq : DecimalRat q) :
    parseFloatFinite (ratToString q) = some q := by
  have hd0 : 0 < q.den := q.pos
  obtain ⟨k, hk⟩ : ∃ k, (List.range (q.den + 1)).find? (fun j => 10 ^ j % q.den = 0) = some k := by
    rcases hfind : (List.range (q.den + 1)).find? (fun j => 10 ^ j % q.den = 0) with _ | k
    · exfalso
      have hmem : q.den ∈ List.range (q.den + 1) := by
        rw [List.mem_range]; omega
      have hnot := List.find?_eq_none.mp hfind q.den hmem
      simp only [decide_eq_true_eq] at hnot
      exact hnot (Nat.mod_eq_zero_of_dvd hq)
    · exact ⟨k, rfl⟩
  have hkP : 10 ^ k % q.den = 0 := by
    have := List.find?_some hk
    simpa using this
  have hdvd : q.den ∣ 10 ^ k := Nat.dvd_of_mod_eq_zero hkP
  have hMden : q.num.natAbs * (10 ^ k / q.den) * q.den = q.num.natAbs * 10 ^ k := by
    rw [mul_assoc, Nat.div_mul_cancel hdvd]
  have hval : ((q.num.natAbs * (10 ^ k / q.den) : ℕ) : ℚ) / 10 ^ k =
      ((q.num.natAbs : ℕ) : ℚ) / (q.den : ℚ) := by
    rw [div_eq_div_iff (by positivity) (show ((q.den : ℚ)) ≠ 0 by exact_mod_cast hd0.ne')]
    exact_mod_cast hMden
  obtain ⟨hclass, d0, rest, hdata, hd10⟩ := decString_data_facts (q.num.natAbs * (10 ^ k / q.den)) k
  by_cases hs : q.num < 0
  · have hrts : ratToString q = "-" ++ decString (q.num.natAbs * (10 ^ k / q.den)) k := by
      simp only [ratToString, hk, Option.getD_some, if_pos hs]
    rw [hrts, parseFloatFinite_minus, parseUnsigned_decData]
    congr 1
    rw [if_pos rfl, hval, Nat.cast_natAbs, abs_of_neg hs, Int.cast_neg, neg_div, neg_neg,
      Rat.num_div_den]
  · have hrts : ratToString q = "" ++ decString (q.num.natAbs * (10 ^ k / q.den)) k := by
      simp only [ratToString, hk, Option.getD_some, if_neg hs]
    have hemp : ("" ++ decString (q.num.natAbs * (10 ^ k / q.den)) k) =
        decString (q.num.natAbs * (10 ^ k / q.den)) k := by
      apply String.ext
      rw [String.data_append]
      rfl
    rw [hrts, hemp]
    rw [parseFloatFinite_no_sign _ (Nat.digitChar d0) rest hdata
      (fun c hc => (num_char_good c (by
        rcases hclass c hc with h1 | h1
        · exact Or.inl h1
        · exact Or.inr (Or.inl h1))).1)
      (by intro he
          have hdig := (digitChar_facts d0 hd10).1
          rw [he] at hdig
          exact absurd hdig (by decide))
      (by intro he
          have hdig := (digitChar_facts d0 hd10).1
          rw [he] at hdig
          exact absurd hdig (by decide))]
    rw [parseUnsigned_decData]
    congr 1
    rw [if_neg Bool.false_ne_true, hval, Nat.cast_natAbs, abs_of_nonneg (not_lt.mp hs),
      Rat.num_div_den]

theorem splitOnChar_ne_nil (sep : Char) : ∀ l, splitOnChar sep l ≠ [] := by
  intro l
  induction l with
  | nil => simp [splitOnChar]
  | cons a rest ih =>
    simp only [splitOnChar]
    rcases h : splitOnChar sep rest with _ | ⟨hd, tl⟩
    · exact absurd h ih
    · by_cases ha : a = sep <;> simp [ha]

theorem splitOnChar_no_sep (sep : Char) : ∀ l, sep ∉ l → splitOnChar sep l = [l] := by
  intro l
  induction l with
  | nil => intro _; rfl
  | cons a rest ih =>
    intro h
    have ha : a ≠ sep := fun he => h (he ▸ List.mem_cons_self a rest)
    have hr : sep ∉ rest := fun hm => h (List.mem_cons_of_mem a hm)
    simp only [splitOnChar, ih hr]
    simp [ha]

theorem splitOnChar_sep_cons (sep : Char) (l : List Char) :
    splitOnChar sep (sep :: l) = [] :: splitOnChar sep l := by
  simp only [splitOnChar]
  rcases h : splitOnChar sep l with _ | ⟨hd, tl⟩
  · exact absurd h (splitOnChar_ne_nil sep l)
  · simp

theorem splitOnChar_prepend (sep : Char) : ∀ (p : List Char), sep ∉ p →
    ∀ (l h : List Char) (t : List (List Char)), splitOnChar sep l = h :: t →
      splitOnChar sep (p ++ l) = (p ++ h) :: t := by
  intro p
  induction p with
  | nil => intro _ l h t hl; simpa using hl
  | cons a p' ih =>
    intro hmem l h t hl
    have ha : a ≠ sep := fun he => hmem (he ▸ List.mem_cons_self _ _)
    have hp : sep ∉ p' := fun hm => hmem (List.mem_cons_of_mem _ hm)
    have hrec := ih hp l h t hl
    simp only [List.cons_append, splitOnChar]
    rw [show splitOnChar sep (p'.append l) = (p' ++ h) :: t from hrec]
    simp [ha]

theorem splitOnChar_joinCL (sep : Char) : ∀ ps : List (List Char), ps ≠ [] →
    (∀ p ∈ ps, sep ∉ p) → splitOnChar sep (joinCL sep ps) = ps := by
  intro ps
  induction ps with
  | nil => intro h _; exact absurd rfl h
  | cons p rest ih =>
    intro _ hmem
    rcases rest with _ | ⟨p2, rest'⟩
    · exact splitOnChar_no_sep sep p (hmem p (List.mem_cons_self _ _))
    · show splitOnChar sep (p ++ sep :: joinCL sep (p2 :: rest')) = _
      have hrec := ih (by simp) (fun x hx => hmem x (List.mem_cons_of_mem _ hx))
      have hsplit : splitOnChar sep (sep :: joinCL sep (p2 :: rest')) = [] :: p2 :: rest' := by
        rw [splitOnChar_sep_cons, hrec]
      rw [splitOnChar_prepend sep p (hmem p (List.mem_cons_self _ _)) _ _ _ hsplit]
      simp

theorem mem_joinCL (sep : Char) : ∀ (ps : List (List Char)) (c : Char),
    c ∈ joinCL sep ps → c = sep ∨ ∃ p ∈ ps, c ∈ p := by
  intro ps
  induction ps with
  | nil => intro c hc; simp [joinCL] at hc
  | cons p rest ih =>
    intro c hc
    rcases rest with _ | ⟨p2, rest'⟩
    · exact Or.inr ⟨p, by simp, hc⟩
    · rcases List.mem_append.mp hc with h1 | h1
      · exact Or.inr ⟨p, by simp, h1⟩
      · rcases List.mem_cons.mp h1 with rfl | h2
        · exact Or.inl rfl
        · rcases ih c h2 with h3 | ⟨p3, hp3, hcp3⟩
          · exact Or.inl h3
          · exact Or.inr ⟨p3, List.mem_cons_of_mem _ hp3, hcp3⟩

theorem joinCL_getLast (sep : Char) : ∀ (ps : List (List Char)) (p : List Char) (c : Char),
    p.getLast? = some c → (joinCL sep (ps ++ [p])).getLast? = some c := by
  intro ps
  induction ps with
  | nil => intro p c h; simpa [joinCL] using h
  | cons p0 rest ih =>
    intro p c h
    have hrec := ih p c h
    show (joinCL sep (p0 :: (rest ++ [p]))).getLast? = some c
    rcases hrp : rest ++ [p] with _ | ⟨q, qs⟩
    · exact absurd hrp (by simp)
    rw [hrp] at hrec
    show (p0 ++ sep :: joinCL sep (q :: qs)).getLast? = some c
    rw [List.getLast?_append_of_ne_nil _ (by simp)]
    have hjne : joinCL sep (q :: qs) ≠ [] := by
      intro he
      rw [he] at hrec
      simp at hrec
    rw [show sep :: joinCL sep (q :: qs) = [sep] ++ joinCL sep (q :: qs) from rfl]
    rw [List.getLast?_append_of_ne_nil _ hjne]
    exact hrec

theorem stripSepCR_eq_self : ∀ ps : List (List Char),
    (∀ p ∈ ps, p.getLast? ≠ some '\r') → stripSepCR ps = ps := by
  intro ps
  induction ps with
  | nil => intro _; rfl
  | cons p rest ih =>
    intro h
    rcases rest with _ | ⟨p2, rest'⟩
    · rfl
    · show stripTrailCR p :: stripSepCR (p2 :: rest') = _
      rw [ih (fun x hx => h x (List.mem_cons_of_mem _ hx))]
      unfold stripTrailCR
      rw [if_neg (h p (List.mem_cons_self _ _))]

theorem filter_map_mk_ne_empty (ps : List (List Char)) (h : ∀ p ∈ ps, p ≠ []) :
    ((ps.map (fun l => (⟨l⟩ : String))).filter (· ≠ "")) = ps.map (fun l => (⟨l⟩ : String)) := by
  rw [List.filter_eq_self]
  intro s hs
  rcases List.mem_map.mp hs with ⟨l, hl, rfl⟩
  simp only [ne_eq, decide_eq_true_eq]
  intro he
  apply h l hl
  have hdata := congrArg String.data he
  simpa using hdata

theorem jsSplitLines_joinCL (ps : List (List Char)) (hne : ps ≠ [])
    (hnl : ∀ p ∈ ps, '\n' ∉ p) (hcr : ∀ p ∈ ps, p.getLast? ≠ some '\r')
    (hnonempty : ∀ p ∈ ps, p ≠ []) :
    jsSplitLines ⟨joinCL '\n' ps⟩ = ps.map (fun l => (⟨l⟩ : String)) := by
  unfold jsSplitLines
  rw [show (⟨joinCL '\n' ps⟩ : String).data = joinCL '\n' ps from rfl]
  rw [splitOnChar_joinCL '\n' ps hne hnl, stripSepCR_eq_self ps hcr,
    filter_map_mk_ne_empty ps hnonempty]

theorem contains_eq_false_of_not_mem (l : List Char) (c : Char) (h : c ∉ l) :
    l.contains c = false := by
  simpa using h

theorem ratToString_chars (q : ℚ) :
    ∀ c ∈ (ratToString q).data, c.isDigit = true ∨ c = '.' ∨ c = '-' := by
  intro c hc
  unfold ratToString at hc
  rw [String.data_append] at hc
  rcases List.mem_append.mp hc with h1 | h1
  · by_cases hs : q.num < 0
    · rw [if_pos hs] at h1
      have h2 : c ∈ ['-'] := h1
      rw [List.mem_singleton] at h2
      exact Or.inr (Or.inr h2)
    · rw [if_neg hs] at h1
      exact absurd (show c ∈ ([] : List Char) from h1) (by simp)
  · rcases (decString_data_facts _ _).1 c h1 with h2 | h2
    · exact Or.inl h2
    · exact Or.inr (Or.inl h2)

theorem ratToString_cell_ok (q : ℚ) :
    (∀ c ∈ (ratToString q).data, c ≠ '\t' ∧ c ≠ ';' ∧ c ≠ ',' ∧ c ≠ '\n') ∧
      trimChars (ratToString q).data = (ratToString q).data := by
  constructor
  · intro c hc
    have hg := num_char_good c (ratToString_chars q c hc)
    exact ⟨hg.2.1, hg.2.2.1, hg.2.2.2.1, hg.2.2.2.2⟩
  · exact trimChars_eq_self _ (fun c hc => (num_char_good c (ratToString_chars q c hc)).1)

theorem rowCells_facts (r : RocketData) (hr : CleanRecord r) :
    ∀ cell ∈ rowCells r,
      (∀ c ∈ cell, c ≠ '\t' ∧ c ≠ ';' ∧ c ≠ ',' ∧ c ≠ '\n') ∧ trimChars cell = cell := by
  obtain ⟨hid, hdv1, hdv2, hx, hy⟩ := hr
  intro cell hcell
  simp only [rowCells, List.mem_cons, List.not_mem_nil, or_false] at hcell
  rcases hcell with rfl | rfl | rfl | rfl | rfl | rfl
  · rcases hidv : r.id with _ | s
    · rw [hidv] at hid; exact hid.elim
    · rw [hidv] at hid
      exact ⟨hid.1, hid.2⟩
  · exact ratToString_cell_ok r.latentx1
  · exact ratToString_cell_ok r.latentx2
  · rcases hdv : r.design_var_1 with _ | s
    · rw [hdv] at hdv1; exact hdv1.elim
    · rw [hdv] at hdv1
      exact ⟨hdv1.1, hdv1.2⟩
  · rcases hdv : r.design_var_2 with _ | s
    · rw [hdv] at hdv2; exact hdv2.elim
    · rw [hdv] at hdv2
      exact ⟨hdv2.1, hdv2.2⟩
  · cases r.feasible
    · exact ⟨by decide, by decide⟩
    · exact ⟨by decide, by decide⟩

theorem rowString_facts (r : RocketData) (hr : CleanRecord r) :
    '\n' ∉ (rowString r).data ∧ (rowString r).data.getLast? = some 'e' ∧
      (rowString r).data ≠ [] ∧ '\t' ∉ (rowString r).data ∧ ';' ∉ (rowString r).data := by
  have hcells := rowCells_facts r hr
  have hlast : (rowString r).data.getLast? = some 'e' := by
    rw [show (rowString r).data = joinCL ',' (rowCells r) from rfl]
    rw [show rowCells r =
      [(cellStr r.id).data, (ratToString r.latentx1).data, (ratToString r.latentx2).data,
       (cellStr r.design_var_1).data, (cellStr r.design_var_2).data] ++
      [(if r.feasible then "true" else "false").data] from rfl]
    apply joinCL_getLast
    cases r.feasible
    · decide
    · decide
  have hmem : ∀ c : Char, c ∈ (rowString r).data → c = ',' ∨ ∃ p ∈ rowCells r, c ∈ p := by
    intro c hc
    exact mem_joinCL ',' (rowCells r) c hc
  refine ⟨?_, hlast, ?_, ?_, ?_⟩
  · intro hmem2
    rcases hmem '\n' hmem2 with h1 | ⟨p, hp, hcp⟩
    · exact absurd h1 (by decide)
    · exact ((hcells p hp).1 '\n' hcp).2.2.2 rfl
  · intro he
    rw [he] at hlast
    simp at hlast
  · intro hmem2
    rcases hmem '\t' hmem2 with h1 | ⟨p, hp, hcp⟩
    · exact absurd h1 (by decide)
    · exact ((hcells p hp).1 '\t' hcp).1 rfl
  · intro hmem2
    rcases hmem ';' hmem2 with h1 | ⟨p, hp, hcp⟩
    · exact absurd h1 (by decide)
    · exact ((hcells p hp).1 ';' hcp).2.1 rfl

theorem splitCells_rowString (r : RocketData) (hr : CleanRecord r) :
    splitCells ',' (rowString r) =
      [cellStr r.id, ratToString r.latentx1, ratToString r.latentx2,
       cellStr r.design_var_1, cellStr r.design_var_2,
       if r.feasible then "true" else "false"] := by
  have hcells := rowCells_facts r hr
  unfold splitCells
  rw [show (rowString r).data = joinCL ',' (rowCells r) from rfl]
  rw [splitOnChar_joinCL ',' (rowCells r) (by simp [rowCells])
    (fun p hp hmem => ((hcells p hp).1 ',' hmem).2.2.1 rfl)]
  have hmapeq : (rowCells r).map (fun l => jsTrim ⟨l⟩) =
      (rowCells r).map (fun l => (⟨l⟩ : String)) := by
    apply List.map_congr_left
    intro l hl
    show (⟨trimChars l⟩ : String) = ⟨l⟩
    rw [(hcells l hl).2]
  rw [hmapeq]
  rfl

theorem parseRow_rowString (r : RocketData) (hr : CleanRecord r) (i : ℕ) :
    parseRow ',' 1 2 (some 0) (some 3) (some 4) (some 5) i (rowString r) = some r := by
  have hcols := splitCells_rowString r hr
  obtain ⟨hid, hdv1, hdv2, hx, hy⟩ := hr
  rcases hidv : r.id with _ | sid
  · rw [hidv] at hid; exact hid.elim
  rcases hdv1v : r.design_var_1 with _ | sd1
  · rw [hdv1v] at hdv1; exact hdv1.elim
  rcases hdv2v : r.design_var_2 with _ | sd2
  · rw [hdv2v] at hdv2; exact hdv2.elim
  unfold parseRow
  rw [hcols, hidv, hdv1v, hdv2v]
  simp only [cellStr, Option.getD_some, List.getElem?_cons_zero, List.getElem?_cons_succ,
    parseFloatCell, Option.some_bind]
  rw [parseFloatFinite_ratToString r.latentx1 hx, parseFloatFinite_ratToString r.latentx2 hy]
  have hfeas : feasTest (jsTrim (if r.feasible then "true" else "false")) = r.feasible := by
    cases hf : r.feasible
    · decide
    · decide
  simp only [hfeas]
  rw [← hidv, ← hdv1v, ← hdv2v]

theorem filterMap_parse_enumFrom : ∀ (rows : List RocketData),
    (∀ r ∈ rows, CleanRecord r) → ∀ j : ℕ,
    List.filterMap (fun p => parseRow ',' 1 2 (some 0) (some 3) (some 4) (some 5) p.1 p.2)
      (List.enumFrom j (rows.map (fun r => rowString r))) = rows := by
  intro rows
  induction rows with
  | nil => intro _ j; rfl
  | cons r rest ih =>
    intro hclean j
    simp only [List.map_cons, List.enumFrom, List.filterMap_cons]
    rw [parseRow_rowString r (hclean r (List.mem_cons_self _ _)) j]
    rw [ih (fun x hx => hclean x (List.mem_cons_of_mem _ hx)) (j + 1)]

theorem exportPieces_facts (rows : List RocketData)
    (hclean : ∀ r ∈ rows, CleanRecord r) :
    ∀ p ∈ (exportHeader.data :: rows.map (fun r => (rowString r).data)),
      '\n' ∉ p ∧ p.getLast? ≠ some '\r' ∧ p ≠ [] ∧ '\t' ∉ p ∧ ';' ∉ p := by
  intro p hp
  rcases List.mem_cons.mp hp with rfl | hp2
  · exact ⟨by decide, by decide, by decide, by decide, by decide⟩
  · rcases List.mem_map.mp hp2 with ⟨r, hrmem, rfl⟩
    have hf := rowString_facts r (hclean r hrmem)
    refine ⟨hf.1, ?_, hf.2.2.1, hf.2.2.2.1, hf.2.2.2.2⟩
    rw [hf.2.1]
    simp

theorem jsDetectDelim_exportText (rows : List RocketData)
    (hclean : ∀ r ∈ rows, CleanRecord r) :
    jsDetectDelim (exportText rows) = ',' := by
  have hp := exportPieces_facts rows hclean
  have hnoTab : '\t' ∉ (exportText rows).data := by
    intro hmem
    rcases mem_joinCL '\n' (exportHeader.data :: rows.map (fun r => (rowString r).data))
      '\t' hmem with h1 | ⟨p, hpm, hcp⟩
    · exact absurd h1 (by decide)
    · exact (hp p hpm).2.2.2.1 hcp
  have hnoSemi : ';' ∉ (exportText rows).data := by
    intro hmem
    rcases mem_joinCL '\n' (exportHeader.data :: rows.map (fun r => (rowString r).data))
      ';' hmem with h1 | ⟨p, hpm, hcp⟩
    · exact absurd h1 (by decide)
    · exact (hp p hpm).2.2.2.2 hcp
  unfold jsDetectDelim
  rw [contains_eq_false_of_not_mem _ _ hnoTab, contains_eq_false_of_not_mem _ _ hnoSemi]
  rfl

theorem jsSplitLines_exportText (rows : List RocketData)
    (hclean : ∀ r ∈ rows, CleanRecord r) :
    jsSplitLines (exportText rows) = exportHeader :: rows.map (fun r => rowString r) := by
  have hp := exportPieces_facts rows hclean
  have h := jsSplitLines_joinCL (exportHeader.data :: rows.map (fun r => (rowString r).data))
    (by simp) (fun p hpm => (hp p hpm).1) (fun p hpm => (hp p hpm).2.1)
    (fun p hpm => (hp p hpm).2.2.1)
  rw [show exportText rows =
    (⟨joinCL '\n' (exportHeader.data :: rows.map (fun r => (rowString r).data))⟩ : String)
    from rfl]
  rw [h]
  simp only [List.map_cons, List.map_map]
  refine congrArg₂ List.cons rfl ?_
  apply List.map_congr_left
  intro r _
  rfl

theorem parseCSV_exportText (rows : List RocketData)
    (hclean : ∀ r ∈ rows, CleanRecord r) :
    parseCSV (exportText rows) = .ok rows := by
  have hdelim := jsDetectDelim_exportText rows hclean
  have hlines := jsSplitLines_exportText rows hclean
  have hix : idxOf (headerLower ',' exportHeader) "latentx1" = some 1 := by
    with_unfolding_all decide
  have hiy : idxOf (headerLower ',' exportHeader) "latentx2" = some 2 := by
    with_unfolding_all decide
  have hiid : idxOf (headerLower ',' exportHeader) "id" = some 0 := by
    with_unfolding_all decide
  have hiv1 : idxOf (headerLower ',' exportHeader) "design_var_1" = some 3 := by
    with_unfolding_all decide
  have hiv2 : idxOf (headerLower ',' exportHeader) "design_var_2" = some 4 := by
    with_unfolding_all decide
  have hif : idxOf (headerLower ',' exportHeader) "feasible" = some 5 := by
    with_unfolding_all decide
  simp only [parseCSV, hdelim, hlines, hix, hiy, hiid, hiv1, hiv2, hif]
  rw [foldl_push_filterMap, List.nil_append]
  exact congrArg Except.ok (filterMap_parse_enumFrom rows hclean 1)

/-- C5: corrected. Exporting a nonempty selection and parsing the result
recovers exactly the selected records — provided every selected record is
clean: its id and design-variable cells are defined, contain no tab,
semicolon, comma or newline, survive trimming unchanged, and its
coordinates are decimal rationals (denominator a power of ten, as every
parsed finite double is). Without the cleanliness proviso the round trip
can fail: `export_roundtrip_counterexample` shows a record whose
design-variable field holds a semicolon (legally parsed from tab-delimited
input) whose comma-joined export re-parses as a schema error, because
delimiter detection picks the semicolon. -/
theorem export_roundtrip (sel : List (Option String × RocketData))
    (hne : sel ≠ [])
    (hclean : ∀ p ∈ sel, CleanRecord p.2) :
    handleSelectionExport sel = some (exportText (sel.map (fun p => p.2))) ∧
      parseCSV (exportText (sel.map (fun p => p.2))) = .ok (sel.map (fun p => p.2)) := by
  constructor
  · unfold handleSelectionExport
    rw [if_neg (show ¬sel.length = 0 by simpa [List.length_eq_zero] using hne)]
  · refine parseCSV_exportText _ ?_
    intro r hr
    rcases List.mem_map.mp hr with ⟨p, hp, rfl⟩
    exact hclean p hp

/-- C5: witness. A singleton selection of a clean record: the export text is
defined and parses back to exactly that record. -/
theorem export_roundtrip_witness :
    ([((some "7" : Option String), (⟨some "7", 1, 2, some "a", some "b", true⟩ : RocketData))] ≠ []) ∧
    (∀ p ∈ [((some "7" : Option String), (⟨some "7", 1, 2, some "a", some "b", true⟩ : RocketData))],
      CleanRecord p.2) ∧
    (handleSelectionExport [(some "7", ⟨some "7", 1, 2, some "a", some "b", true⟩)] =
        some (exportText [⟨some "7", 1, 2, some "a", some "b", true⟩]) ∧
      parseCSV (exportText [⟨some "7", 1, 2, some "a", some "b", true⟩]) =
        .ok [⟨some "7", 1, 2, some "a", some "b", true⟩]) := by
  refine ⟨List.cons_ne_nil _ _, ?_, ?_⟩
  · intro p hp
    rw [List.mem_singleton] at hp
    subst hp
    exact ⟨⟨by decide, by decide⟩, ⟨by decide, by decide⟩, ⟨by decide, by decide⟩,
      show (1 : ℚ).den ∣ 10 ^ (1 : ℚ).den by with_unfolding_all decide,
      show (2 : ℚ).den ∣ 10 ^ (2 : ℚ).den by with_unfolding_all decide⟩
  · exact export_roundtrip [(some "7", ⟨some "7", 1, 2, some "a", some "b", true⟩)]
      (List.cons_ne_nil _ _)
      (by
        intro p hp
        rw [List.mem_singleton] at hp
        subst hp
        exact ⟨⟨by decide, by decide⟩, ⟨by decide, by decide⟩, ⟨by decide, by decide⟩,
          show (1 : ℚ).den ∣ 10 ^ (1 : ℚ).den by with_unfolding_all decide,
          show (2 : ℚ).den ∣ 10 ^ (2 : ℚ).den by with_unfolding_all decide⟩)
